import Mathlib

/-!
Verification of the request-governance layer of the stock-research dashboard:
the `RateLimiter` priority queue, the two-tier `CacheService`, and the
`AlphaVantageService` facade (src/services/rateLimiter.ts, cacheService.ts,
alphaVantageService.ts).  Timestamps are modelled as `Int` milliseconds
(`Date.now()` values); strings as `String` or `List Char` where substring
reasoning is needed; fallible code as `Except`.
-/

namespace StockResearch

/-! ## RateLimiter: constants and state (rateLimiter.ts lines 23-42) -/

def MAX_REQUESTS_PER_MINUTE : Nat := 5

def INTERVAL_MS : Int := 60 * 1000

def MIN_REQUEST_SPACING_MS : Int := 12500

def MAX_DAILY_REQUESTS : Nat := 500

/-- Mutable fields of the `RateLimiter` singleton that the admission policy
reads and writes: `requestHistory`, `dailyCount`, `dailyResetTime`. -/
structure LimiterState where
  requestHistory : List Int
  dailyCount : Nat
  dailyResetTime : Int
  deriving Repr, DecidableEq

/-- The `{ allowed, reason? }` record returned by `canMakeRequest`. -/
structure CheckStatus where
  allowed : Bool
  reason : Option String
  deriving Repr, DecidableEq

def dailyLimitReason : String :=
  "Daily API limit reached (500 calls). Resets at midnight."

def perMinuteReason : String :=
  "Per-minute rate limit reached (5 calls/min)"

/-- The interpolated reason of the minimum-spacing branch:
`Waiting ${Math.ceil((MIN_REQUEST_SPACING_MS - (now - lastRequest)) / 1000)}s before next call`. -/
def spacingReason (now lastRequest : Int) : String :=
  "Waiting " ++ toString ((MIN_REQUEST_SPACING_MS - (now - lastRequest) + 999) / 1000)
    ++ "s before next call"

def rateLimiterTimeoutMsg : String :=
  "Rate limiter timeout: Unable to process request after 2 minutes"

/-- `RateLimiter.canMakeRequest` (lines 89-123).  It prunes `requestHistory`
in place, so the model returns the status together with the updated state.
The guard `lastRequest && now - lastRequest < MIN_REQUEST_SPACING_MS` tests
JS truthiness of the timestamp, hence the `last ≠ 0` conjunct. -/
def canMakeRequest (st : LimiterState) (now : Int) : CheckStatus × LimiterState :=
  if MAX_DAILY_REQUESTS ≤ st.dailyCount then
    (⟨false, some dailyLimitReason⟩, st)
  else
    let hist := st.requestHistory.filter (fun t => now - t < INTERVAL_MS)
    let st' := { st with requestHistory := hist }
    if MAX_REQUESTS_PER_MINUTE ≤ hist.length then
      (⟨false, some perMinuteReason⟩, st')
    else
      match hist.getLast? with
      | some last =>
        if last ≠ 0 ∧ now - last < MIN_REQUEST_SPACING_MS then
          (⟨false, some (spacingReason now last)⟩, st')
        else
          (⟨true, none⟩, st')
      | none => (⟨true, none⟩, st')

/-- `RateLimiter.checkDailyReset` (lines 75-84).  `getNextDayTimestamp()` reads
the wall clock, so the next-midnight value is passed in as `nextDay`. -/
def checkDailyReset (st : LimiterState) (now nextDay : Int) : LimiterState :=
  if st.dailyResetTime ≤ now then
    { st with dailyCount := 0, dailyResetTime := nextDay }
  else st

/-- One pass of the polling loop of `RateLimiter.waitUntilCanRequest`
(lines 128-156), recursing on the remaining attempts (`120 - attempts`).
`times k` is the clock value observed by the k-th iteration (the sleeps in
between are abstracted into this time stream).  The second component counts
how many sleeps were performed before returning. -/
def waitUntilCanRequestAux (times : Nat → Int) :
    Nat → Nat → LimiterState → (Except String LimiterState) × Nat
  | _, 0, _ => (Except.error rateLimiterTimeoutMsg, 0)
  | i, fuel + 1, st =>
    let res := canMakeRequest st (times i)
    if res.1.allowed then (Except.ok res.2, 0)
    else if MAX_DAILY_REQUESTS ≤ res.2.dailyCount then
      (Except.error (res.1.reason.getD ""), 0)
    else
      let r := waitUntilCanRequestAux times (i + 1) fuel res.2
      (r.1, r.2 + 1)

/-- `RateLimiter.waitUntilCanRequest` with its `maxAttempts = 120` ceiling. -/
def waitUntilCanRequest (times : Nat → Int) (st : LimiterState) :
    (Except String LimiterState) × Nat :=
  waitUntilCanRequestAux times 0 120 st

/-- The admission-and-record step of the drain loop `RateLimiter.processQueue`
(lines 200-217): if `canMakeRequest` allows at clock value `now`, push `now`
onto `requestHistory` and bump `dailyCount`; otherwise only the pruning done by
`canMakeRequest` takes effect.  Returns the admission timestamp if admitted. -/
def admitStep (st : LimiterState) (now : Int) : LimiterState × Option Int :=
  let res := canMakeRequest st now
  if res.1.allowed then
    ({ res.2 with
        requestHistory := res.2.requestHistory ++ [now],
        dailyCount := res.2.dailyCount + 1 },
      some now)
  else (res.2, none)

/-- Run a sequence of admission checks at the given (monotone) clock values,
collecting the timestamps of the admitted calls in order. -/
def runAdmissions (st : LimiterState) : List Int → LimiterState × List Int
  | [] => (st, [])
  | t :: ts =>
    let s := admitStep st t
    let r := runAdmissions s.1 ts
    (r.1, s.2.toList ++ r.2)

/-- When the daily quota is exhausted, one iteration of the polling loop
returns the quota error without sleeping, whatever fuel remains. -/
theorem waitUntilCanRequestAux_daily (times : Nat → Int) (i fuel : Nat)
    (st : LimiterState) (h : MAX_DAILY_REQUESTS ≤ st.dailyCount) :
    waitUntilCanRequestAux times i (fuel + 1) st =
      (Except.error dailyLimitReason, 0) := by
  unfold waitUntilCanRequestAux
  simp [canMakeRequest, if_pos h]

/-- C1: once `dailyCount` reaches 500, every admission attempt fails
immediately with the quota-exhausted error — `waitUntilCanRequest` returns the
error on its first iteration with zero sleeps, so waiting callers do not keep
polling — and `checkDailyReset` leaves the state untouched before the recorded
reset time, resets `dailyCount` to 0 once it has passed, after which admission
(with an empty recent-call history) succeeds again. -/
theorem daily_quota_gate_spec :
    (∀ (times : Nat → Int) (st : LimiterState),
        MAX_DAILY_REQUESTS ≤ st.dailyCount →
        waitUntilCanRequest times st = (Except.error dailyLimitReason, 0)) ∧
    (∀ (st : LimiterState) (now nextDay : Int),
        now < st.dailyResetTime → checkDailyReset st now nextDay = st) ∧
    (∀ (st : LimiterState) (now nextDay : Int),
        st.dailyResetTime ≤ now →
        (checkDailyReset st now nextDay).dailyCount = 0) ∧
    (∀ (st : LimiterState) (now nextDay : Int),
        st.dailyResetTime ≤ now → st.requestHistory = [] →
        (canMakeRequest (checkDailyReset st now nextDay) now).1.allowed = true) := by
  refine ⟨?_, ?_, ?_, ?_⟩
  · intro times st h
    exact waitUntilCanRequestAux_daily times 0 119 st h
  · intro st now nextDay h
    simp [checkDailyReset, not_le.mpr h]
  · intro st now nextDay h
    simp [checkDailyReset, if_pos h]
  · intro st now nextDay h hh
    simp [checkDailyReset, if_pos h, canMakeRequest, hh, MAX_DAILY_REQUESTS,
      MAX_REQUESTS_PER_MINUTE]

/-- Witness for C1 at concrete inputs. -/
theorem daily_quota_gate_spec_witness :
    waitUntilCanRequest (fun _ => 5) ⟨[], 500, 99⟩ = (Except.error dailyLimitReason, 0) ∧
    checkDailyReset ⟨[], 500, 99⟩ 50 8640099 = ⟨[], 500, 99⟩ ∧
    (checkDailyReset ⟨[], 500, 99⟩ 120 8640099).dailyCount = 0 ∧
    (canMakeRequest (checkDailyReset ⟨[], 500, 99⟩ 120 8640099) 120).1.allowed = true :=
  ⟨daily_quota_gate_spec.1 (fun _ => 5) ⟨[], 500, 99⟩ (by decide),
   daily_quota_gate_spec.2.1 ⟨[], 500, 99⟩ 50 8640099 (by decide),
   daily_quota_gate_spec.2.2.1 ⟨[], 500, 99⟩ 120 8640099 (by decide),
   daily_quota_gate_spec.2.2.2 ⟨[], 500, 99⟩ 120 8640099 (by decide) rfl⟩

/-! ## C2/C3: minimum spacing and sliding window over admission traces -/

/-- The minimum-spacing relation between two admission timestamps. -/
def minGap (a b : Int) : Prop := a + MIN_REQUEST_SPACING_MS ≤ b

instance : DecidableRel minGap := fun a b => inferInstanceAs (Decidable (_ ≤ _))

instance : IsTrans Int minGap :=
  ⟨fun _ _ _ hab hbc => by
    simp only [minGap, MIN_REQUEST_SPACING_MS] at *; omega⟩

/-- Filtering a `≤`-sorted list by an upward-closed predicate keeps a suffix
(the pruning in `canMakeRequest` only drops the oldest timestamps). -/
theorem filter_suffix_of_upclosed (p : Int → Bool)
    (hp : ∀ a b : Int, a ≤ b → p a = true → p b = true) :
    ∀ l : List Int, l.Pairwise (· ≤ ·) → l.filter p <:+ l := by
  intro l hl
  induction l with
  | nil => simp
  | cons x xs ih =>
    rcases List.pairwise_cons.mp hl with ⟨hx, hxs⟩
    by_cases hpx : p x = true
    · have : xs.filter p = xs := List.filter_eq_self.mpr fun a ha => hp x a (hx a ha) hpx
      simp [hpx, this]
    · have hpx' : p x = false := by
        cases h : p x
        · rfl
        · exact absurd h hpx
      rw [List.filter_cons_of_neg (by simp [hpx'])]
      exact (ih hxs).trans (List.suffix_cons x xs)

/-- A nonempty suffix has the same last element as the whole list. -/
theorem suffix_getLast?_eq {l₁ l₂ : List Int} (h : l₁ <:+ l₂) (hne : l₁ ≠ []) :
    l₂.getLast? = l₁.getLast? := by
  obtain ⟨pre, rfl⟩ := h
  exact List.getLast?_append_of_ne_nil pre hne

/-- In a list whose consecutive (hence, by transitivity, all) pairs are
`d`-separated, the last element is at least `length * d` past the head. -/
theorem pairwise_gap_span (d : Int) :
    ∀ (l : List Int) (x : Int),
      (x :: l).Pairwise (fun a b => a + d ≤ b) →
      x + (l.length : Int) * d ≤ (x :: l).getLast (List.cons_ne_nil x l) := by
  intro l
  induction l with
  | nil => intro x _; simp
  | cons z l' ih =>
    intro x hpw
    rcases List.pairwise_cons.mp hpw with ⟨hx, hzl⟩
    have hxz : x + d ≤ z := hx z (List.mem_cons_self z l')
    have hih := ih z hzl
    rw [List.getLast_cons (List.cons_ne_nil z l')]
    have : (List.length (z :: l') : Int) = (l'.length : Int) + 1 := by
      simp
    rw [this]
    have expand : x + ((l'.length : Int) + 1) * d = (x + d) + (l'.length : Int) * d := by ring
    rw [expand]
    have := add_le_add_right hxz ((l'.length : Int) * d)
    omega

/-- `admitStep` when the daily quota blocks: state untouched, no admission. -/
theorem admitStep_eq_daily (st : LimiterState) (now : Int)
    (hd : MAX_DAILY_REQUESTS ≤ st.dailyCount) :
    admitStep st now = (st, none) := by
  simp [admitStep, canMakeRequest, hd]

/-- `admitStep` when the per-minute window blocks: only pruning happens. -/
theorem admitStep_eq_window (st : LimiterState) (now : Int)
    (hd : ¬ MAX_DAILY_REQUESTS ≤ st.dailyCount)
    (h5 : MAX_REQUESTS_PER_MINUTE ≤
      (st.requestHistory.filter (fun t => now - t < INTERVAL_MS)).length) :
    admitStep st now =
      ({ st with
          requestHistory := st.requestHistory.filter (fun t => now - t < INTERVAL_MS) },
        none) := by
  simp [admitStep, canMakeRequest, hd, h5]

/-- `admitStep` when the minimum-spacing check blocks: only pruning happens. -/
theorem admitStep_eq_spacing (st : LimiterState) (now last : Int)
    (hd : ¬ MAX_DAILY_REQUESTS ≤ st.dailyCount)
    (h5 : ¬ MAX_REQUESTS_PER_MINUTE ≤
      (st.requestHistory.filter (fun t => now - t < INTERVAL_MS)).length)
    (hlast : (st.requestHistory.filter (fun t => now - t < INTERVAL_MS)).getLast? = some last)
    (hsp : last ≠ 0 ∧ now - last < MIN_REQUEST_SPACING_MS) :
    admitStep st now =
      ({ st with
          requestHistory := st.requestHistory.filter (fun t => now - t < INTERVAL_MS) },
        none) := by
  simp [admitStep, canMakeRequest, hd, h5, hlast, hsp]

/-- `admitStep` when the pruned history is empty: admitted and recorded. -/
theorem admitStep_eq_allow_none (st : LimiterState) (now : Int)
    (hd : ¬ MAX_DAILY_REQUESTS ≤ st.dailyCount)
    (h5 : ¬ MAX_REQUESTS_PER_MINUTE ≤
      (st.requestHistory.filter (fun t => now - t < INTERVAL_MS)).length)
    (hlast : (st.requestHistory.filter (fun t => now - t < INTERVAL_MS)).getLast? = none) :
    admitStep st now =
      ({ st with
          requestHistory := st.requestHistory.filter (fun t => now - t < INTERVAL_MS) ++ [now],
          dailyCount := st.dailyCount + 1 },
        some now) := by
  simp [admitStep, canMakeRequest, hd, h5, hlast]

/-- `admitStep` when the spacing check passes: admitted and recorded. -/
theorem admitStep_eq_allow_some (st : LimiterState) (now last : Int)
    (hd : ¬ MAX_DAILY_REQUESTS ≤ st.dailyCount)
    (h5 : ¬ MAX_REQUESTS_PER_MINUTE ≤
      (st.requestHistory.filter (fun t => now - t < INTERVAL_MS)).length)
    (hlast : (st.requestHistory.filter (fun t => now - t < INTERVAL_MS)).getLast? = some last)
    (hsp : ¬ (last ≠ 0 ∧ now - last < MIN_REQUEST_SPACING_MS)) :
    admitStep st now =
      ({ st with
          requestHistory := st.requestHistory.filter (fun t => now - t < INTERVAL_MS) ++ [now],
          dailyCount := st.dailyCount + 1 },
        some now) := by
  simp [admitStep, canMakeRequest, hd, h5, hlast, hsp]

/-- Invariant carried along an admission trace: the admitted timestamps are
chained `MIN_REQUEST_SPACING_MS` apart and positive, the limiter's
`requestHistory` is a suffix of them, and if the history has been fully pruned
then the last admitted call is at least one window (`INTERVAL_MS`) old. -/
structure AdmInv (st : LimiterState) (admitted : List Int) (t0 : Int) : Prop where
  chain : admitted.Chain' minGap
  pos : ∀ a ∈ admitted, 0 < a
  suffix : st.requestHistory <:+ admitted
  empty_old : st.requestHistory = [] →
    ∀ la ∈ admitted.getLast?, la + INTERVAL_MS ≤ t0

/-- Appending a freshly admitted timestamp that is `minGap`-compatible with
the last admitted call preserves the invariant. -/
theorem pushed_inv {st : LimiterState} {admitted hist : List Int} {t0 now : Int}
    (inv : AdmInv st admitted t0) (hfil : hist <:+ admitted) (hpos : 0 < now)
    (hgap : ∀ la ∈ admitted.getLast?, minGap la now) (st' : LimiterState)
    (hst' : st'.requestHistory = hist ++ [now]) :
    AdmInv st' (admitted ++ [now]) now := by
  refine ⟨?_, ?_, ?_, ?_⟩
  · refine List.chain'_append.mpr ⟨inv.chain, List.chain'_singleton now, ?_⟩
    intro x hx y hy
    simp only [List.head?_cons, Option.mem_def, Option.some.injEq] at hy
    subst hy
    exact hgap x hx
  · intro a ha
    rcases List.mem_append.mp ha with h | h
    · exact inv.pos a h
    · simp at h
      omega
  · rw [hst']
    obtain ⟨pre, hpre⟩ := hfil
    exact ⟨pre, by rw [← List.append_assoc, hpre]⟩
  · rw [hst']
    intro h
    simp at h

/-- One step of the drain loop preserves the invariant: whichever branch of
`canMakeRequest` fires, the admitted-trace facts survive with the new clock
value as the bound. -/
theorem admitStep_inv {st : LimiterState} {admitted : List Int} {t0 : Int}
    (inv : AdmInv st admitted t0) (now : Int) (h0 : t0 ≤ now) (hpos : 0 < now) :
    AdmInv (admitStep st now).1 (admitted ++ (admitStep st now).2.toList) now := by
  have hist_pw : st.requestHistory.Pairwise (· ≤ ·) := by
    have h1 : admitted.Pairwise minGap :=
      (List.chain'_iff_pairwise (R := minGap)).mp inv.chain
    have h2 : admitted.Pairwise (· ≤ ·) :=
      h1.imp (by intro a b h; simp only [minGap, MIN_REQUEST_SPACING_MS] at h; omega)
    exact h2.sublist inv.suffix.sublist
  have hfil : st.requestHistory.filter (fun t => now - t < INTERVAL_MS) <:+ st.requestHistory := by
    refine filter_suffix_of_upclosed _ ?_ _ hist_pw
    intro a b hab ha
    simp only [decide_eq_true_eq] at *
    omega
  have hfil' : st.requestHistory.filter (fun t => now - t < INTERVAL_MS) <:+ admitted :=
    hfil.trans inv.suffix
  -- the last admitted call is spacing-compatible with `now` whenever the
  -- pruned history is empty
  have hempty : st.requestHistory.filter (fun t => now - t < INTERVAL_MS) = [] →
      ∀ la ∈ admitted.getLast?, la + INTERVAL_MS ≤ now := by
    intro hnil la hla
    by_cases hh : st.requestHistory = []
    · exact le_trans (inv.empty_old hh la hla) h0
    · have hlast : st.requestHistory.getLast? = admitted.getLast? :=
        (suffix_getLast?_eq inv.suffix hh).symm
      have hla' : st.requestHistory.getLast? = some la := by rw [hlast]; exact hla
      have hmem : la ∈ st.requestHistory := List.mem_of_getLast?_eq_some hla'
      have := List.filter_eq_nil_iff.mp hnil la hmem
      simp only [decide_eq_true_eq] at this
      omega
  -- case analysis on the branch taken by `canMakeRequest`
  by_cases hd : MAX_DAILY_REQUESTS ≤ st.dailyCount
  · rw [admitStep_eq_daily st now hd]
    show AdmInv st (admitted ++ []) now
    rw [List.append_nil]
    exact ⟨inv.chain, inv.pos, inv.suffix,
      fun hh la hla => le_trans (inv.empty_old hh la hla) h0⟩
  · by_cases h5 : MAX_REQUESTS_PER_MINUTE ≤
        (st.requestHistory.filter (fun t => now - t < INTERVAL_MS)).length
    · rw [admitStep_eq_window st now hd h5]
      show AdmInv
        { st with requestHistory := st.requestHistory.filter (fun t => now - t < INTERVAL_MS) }
        (admitted ++ []) now
      rw [List.append_nil]
      exact ⟨inv.chain, inv.pos, hfil', hempty⟩
    · cases hlast : (st.requestHistory.filter (fun t => now - t < INTERVAL_MS)).getLast? with
      | none =>
        have hnil : st.requestHistory.filter (fun t => now - t < INTERVAL_MS) = [] :=
          List.getLast?_eq_none_iff.mp hlast
        have hgap : ∀ la ∈ admitted.getLast?, minGap la now := by
          intro la hla
          have := hempty hnil la hla
          simp only [minGap, MIN_REQUEST_SPACING_MS, INTERVAL_MS] at *
          omega
        rw [admitStep_eq_allow_none st now hd h5 hlast]
        show AdmInv _ (admitted ++ [now]) now
        exact pushed_inv inv hfil' hpos hgap _ rfl
      | some last =>
        by_cases hsp : last ≠ 0 ∧ now - last < MIN_REQUEST_SPACING_MS
        · rw [admitStep_eq_spacing st now last hd h5 hlast hsp]
          show AdmInv
            { st with
                requestHistory := st.requestHistory.filter (fun t => now - t < INTERVAL_MS) }
            (admitted ++ []) now
          rw [List.append_nil]
          exact ⟨inv.chain, inv.pos, hfil', hempty⟩
        · have hne : st.requestHistory.filter (fun t => now - t < INTERVAL_MS) ≠ [] := by
            intro h
            rw [h] at hlast
            simp at hlast
          have hshare : admitted.getLast? = some last := by
            rw [suffix_getLast?_eq hfil' hne]
            exact hlast
          have hmem : last ∈ admitted :=
            hfil'.sublist.subset
              (List.mem_of_getLast?_eq_some hlast)
          have hlpos : 0 < last := inv.pos last hmem
          have hgap : ∀ la ∈ admitted.getLast?, minGap la now := by
            intro la hla
            rw [hshare] at hla
            cases hla
            have : ¬ (now - last < MIN_REQUEST_SPACING_MS) := by
              intro hcon
              exact hsp ⟨by omega, hcon⟩
            simp only [minGap]
            omega
          rw [admitStep_eq_allow_some st now last hd h5 hlast hsp]
          show AdmInv _ (admitted ++ [now]) now
          exact pushed_inv inv hfil' hpos hgap _ rfl

/-- The invariant holds after any monotone, positive admission trace. -/
theorem runAdmissions_inv (times : List Int) :
    ∀ (st : LimiterState) (admitted : List Int) (t0 : Int),
      AdmInv st admitted t0 →
      List.Chain' (· ≤ ·) (t0 :: times) →
      (∀ t ∈ times, 0 < t) →
      ∃ t1, AdmInv (runAdmissions st times).1
        (admitted ++ (runAdmissions st times).2) t1 := by
  induction times with
  | nil =>
    intro st admitted t0 inv _ _
    exact ⟨t0, by simpa [runAdmissions] using inv⟩
  | cons t ts ih =>
    intro st admitted t0 inv hchain hpos
    have h0t : t0 ≤ t := (List.chain'_cons.mp hchain).1
    have hts : List.Chain' (· ≤ ·) (t :: ts) := (List.chain'_cons.mp hchain).2
    have hpt : 0 < t := hpos t (by simp)
    have inv' := admitStep_inv inv t h0t hpt
    obtain ⟨t1, h1⟩ := ih (admitStep st t).1 (admitted ++ (admitStep st t).2.toList) t
      inv' hts (fun x hx => hpos x (by simp [hx]))
    refine ⟨t1, ?_⟩
    simp only [runAdmissions]
    rw [List.append_assoc] at h1
    exact h1

/-- From a fresh limiter state, the admitted timestamps of any monotone,
positive trace are pairwise at least `MIN_REQUEST_SPACING_MS` apart. -/
theorem runAdmissions_chain (d0 : Nat) (r0 : Int) (times : List Int)
    (hchain : times.Chain' (· ≤ ·)) (hpos : ∀ t ∈ times, 0 < t) :
    (runAdmissions ⟨[], d0, r0⟩ times).2.Pairwise minGap := by
  have h0 : List.Chain' (· ≤ ·) ((0 : Int) :: times) := by
    cases times with
    | nil => simp
    | cons t ts =>
      exact List.chain'_cons.mpr ⟨le_of_lt (hpos t (by simp)), hchain⟩
  have inv0 : AdmInv ⟨[], d0, r0⟩ [] 0 :=
    ⟨List.chain'_nil, by simp, List.nil_suffix, by simp⟩
  obtain ⟨t1, h⟩ := runAdmissions_inv times ⟨[], d0, r0⟩ [] 0 inv0 h0 hpos
  have hc := h.chain
  rw [List.nil_append] at hc
  exact (List.chain'_iff_pairwise (R := minGap)).mp hc

/-- C2: for every pair of calls admitted by the rate-gated queue (started
fresh, checked at monotone positive clock values), the admission timestamps
are at least `MIN_REQUEST_SPACING_MS` (12.5 s) apart. -/
theorem min_spacing_spec (d0 : Nat) (r0 : Int) (times : List Int)
    (hchain : times.Chain' (· ≤ ·)) (hpos : ∀ t ∈ times, 0 < t) :
    (runAdmissions ⟨[], d0, r0⟩ times).2.Pairwise
      (fun a b => a + MIN_REQUEST_SPACING_MS ≤ b) :=
  runAdmissions_chain d0 r0 times hchain hpos

/-- Witness for C2: a concrete trace where the second, too-early attempt is
deferred and only spacing-compatible timestamps are admitted. -/
theorem min_spacing_spec_witness :
    List.Chain' (· ≤ ·) ([1, 5000, 13000, 20000] : List Int) ∧
    (runAdmissions ⟨[], 0, 86400000⟩ [1, 5000, 13000, 20000]).2.Pairwise
      (fun a b => a + MIN_REQUEST_SPACING_MS ≤ b) :=
  ⟨by simp [List.chain'_cons, List.chain'_singleton],
   min_spacing_spec 0 86400000 [1, 5000, 13000, 20000]
     (by simp [List.chain'_cons, List.chain'_singleton]) (by decide)⟩

/-- In a `minGap`-separated list, any trailing window of length `INTERVAL_MS`
contains at most `MAX_REQUESTS_PER_MINUTE` elements (5 · 12.5 s = 62.5 s
exceeds the 60 s window). -/
theorem window_count_le (l : List Int) (hl : l.Pairwise minGap) (t : Int) :
    (l.filter (fun a => decide (t - INTERVAL_MS < a ∧ a ≤ t))).length
      ≤ MAX_REQUESTS_PER_MINUTE := by
  have hpf : (l.filter (fun a => decide (t - INTERVAL_MS < a ∧ a ≤ t))).Pairwise minGap :=
    hl.sublist (List.filter_sublist l)
  rcases hc : l.filter (fun a => decide (t - INTERVAL_MS < a ∧ a ≤ t)) with _ | ⟨x, rest⟩
  · simp [MAX_REQUESTS_PER_MINUTE]
  · rw [hc] at hpf
    have hspan := pairwise_gap_span MIN_REQUEST_SPACING_MS rest x hpf
    have hx : x ∈ l.filter (fun a => decide (t - INTERVAL_MS < a ∧ a ≤ t)) := by
      rw [hc]; exact List.mem_cons_self x rest
    have hy : (x :: rest).getLast (List.cons_ne_nil x rest)
        ∈ l.filter (fun a => decide (t - INTERVAL_MS < a ∧ a ≤ t)) := by
      rw [hc]; exact List.getLast_mem (List.cons_ne_nil x rest)
    have hxw := (List.mem_filter.mp hx).2
    have hyw := (List.mem_filter.mp hy).2
    simp only [decide_eq_true_eq] at hxw hyw
    simp only [List.length_cons]
    simp only [INTERVAL_MS, MIN_REQUEST_SPACING_MS, MAX_REQUESTS_PER_MINUTE] at *
    omega

/-- C3: whenever an admission check runs (daily quota not exhausted), call
timestamps older than `INTERVAL_MS` are pruned from `requestHistory` and the
check defers if at least `MAX_REQUESTS_PER_MINUTE` remain; consequently any
trailing 60-second window of an admission trace contains at most 5 admitted
calls. -/
theorem sliding_window_spec :
    (∀ (st : LimiterState) (now : Int), st.dailyCount < MAX_DAILY_REQUESTS →
        (canMakeRequest st now).2.requestHistory
            = st.requestHistory.filter (fun t => now - t < INTERVAL_MS) ∧
        (MAX_REQUESTS_PER_MINUTE ≤
            (st.requestHistory.filter (fun t => now - t < INTERVAL_MS)).length →
          (canMakeRequest st now).1.allowed = false)) ∧
    (∀ (d0 : Nat) (r0 : Int) (times : List Int),
        times.Chain' (· ≤ ·) → (∀ t ∈ times, 0 < t) → ∀ t : Int,
        ((runAdmissions ⟨[], d0, r0⟩ times).2.filter
            (fun a => decide (t - INTERVAL_MS < a ∧ a ≤ t))).length
          ≤ MAX_REQUESTS_PER_MINUTE) := by
  constructor
  · intro st now hd
    have hd' : ¬ MAX_DAILY_REQUESTS ≤ st.dailyCount := not_le.mpr hd
    constructor
    · unfold canMakeRequest
      rw [if_neg hd']
      dsimp only
      split
      · rfl
      · split
        · split <;> rfl
        · rfl
    · intro h5
      unfold canMakeRequest
      rw [if_neg hd', if_pos h5]
  · intro d0 r0 times hchain hpos t
    exact window_count_le _ (runAdmissions_chain d0 r0 times hchain hpos) t

/-- Witness for C3: a full history of five in-window calls defers admission,
and the window bound holds on a concrete admitted trace. -/
theorem sliding_window_spec_witness :
    ((0 : Nat) < MAX_DAILY_REQUESTS) ∧
    (canMakeRequest ⟨[1, 2, 3, 4, 5], 0, 86400000⟩ 10).2.requestHistory
        = ([1, 2, 3, 4, 5] : List Int).filter (fun t => (10 : Int) - t < INTERVAL_MS) ∧
    (canMakeRequest ⟨[1, 2, 3, 4, 5], 0, 86400000⟩ 10).1.allowed = false ∧
    ((runAdmissions ⟨[], 0, 86400000⟩ [1, 5000, 13000, 20000]).2.filter
        (fun a => decide ((13000 : Int) - INTERVAL_MS < a ∧ a ≤ 13000))).length
      ≤ MAX_REQUESTS_PER_MINUTE := by
  have h := sliding_window_spec
  refine ⟨by decide, (h.1 ⟨[1, 2, 3, 4, 5], 0, 86400000⟩ 10 (by decide)).1, ?_, ?_⟩
  · exact (h.1 ⟨[1, 2, 3, 4, 5], 0, 86400000⟩ 10 (by decide)).2 (by decide)
  · exact h.2 0 86400000 [1, 5000, 13000, 20000]
      (by simp [List.chain'_cons, List.chain'_singleton]) (by decide) 13000

/-! ## C4: priority insertion into the queue (rateLimiter.ts lines 163-190) -/

/-- The fields of a `QueuedRequest` relevant to ordering: its `priority` and
its arrival order (`seq`, increasing with each `enqueue` call, standing for
the strictly increasing enqueue sequence). -/
structure QueuedRequest where
  priority : Int
  seq : Nat
  deriving Repr, DecidableEq

/-- The insertion performed by `RateLimiter.enqueue`:
`findIndex(q => q.priority < priority)` then `splice(insertIndex, 0, request)`,
or `push` when no index is found (JS `-1`; with `findIdx` returning `length`,
`take length ++ r :: drop length` is exactly `push`). -/
def enqueueInsert (queue : List QueuedRequest) (r : QueuedRequest) : List QueuedRequest :=
  let insertIndex := queue.findIdx (fun q => q.priority < r.priority)
  queue.take insertIndex ++ r :: queue.drop insertIndex

/-- Enqueue a whole arrival sequence of priorities (arrival order = list
order), numbering requests by arrival. -/
def enqueueAllAux : List Int → Nat → List QueuedRequest → List QueuedRequest
  | [], _, queue => queue
  | p :: ps, n, queue => enqueueAllAux ps (n + 1) (enqueueInsert queue ⟨p, n⟩)

def enqueueAll (ps : List Int) : List QueuedRequest :=
  enqueueAllAux ps 0 []

/-- The ordering invariant of the queue: any earlier request has strictly
higher priority than any later one, or equal priority and earlier arrival. -/
def QueueOrdered (queue : List QueuedRequest) : Prop :=
  queue.Pairwise (fun a b =>
    b.priority < a.priority ∨ (a.priority = b.priority ∧ a.seq < b.seq))

instance : DecidablePred QueueOrdered := fun queue =>
  inferInstanceAs (Decidable (queue.Pairwise _))

/-- Recursive characterization of `enqueueInsert`. -/
theorem enqueueInsert_cons (q : QueuedRequest) (qs : List QueuedRequest)
    (r : QueuedRequest) :
    enqueueInsert (q :: qs) r =
      if q.priority < r.priority then r :: q :: qs else q :: enqueueInsert qs r := by
  by_cases hp : q.priority < r.priority
  · simp [enqueueInsert, List.findIdx_cons, hp]
  · simp [enqueueInsert, List.findIdx_cons, hp]

theorem enqueueInsert_nil (r : QueuedRequest) : enqueueInsert [] r = [r] := rfl

/-- Membership in the spliced queue. -/
theorem mem_enqueueInsert (r x : QueuedRequest) :
    ∀ queue : List QueuedRequest,
      (x ∈ enqueueInsert queue r ↔ x = r ∨ x ∈ queue) := by
  intro queue
  induction queue with
  | nil => simp [enqueueInsert_nil]
  | cons q qs ih =>
    rw [enqueueInsert_cons]
    by_cases hp : q.priority < r.priority
    · rw [if_pos hp]
      simp [List.mem_cons]
    · rw [if_neg hp]
      simp only [List.mem_cons, ih]
      tauto

/-- Stable priority insertion preserves the ordering invariant when the new
request arrives later than everything already queued. -/
theorem enqueueInsert_ordered (r : QueuedRequest) :
    ∀ queue : List QueuedRequest, QueueOrdered queue →
      (∀ x ∈ queue, x.seq < r.seq) → QueueOrdered (enqueueInsert queue r) := by
  intro queue
  induction queue with
  | nil =>
    intro _ _
    simp [enqueueInsert_nil, QueueOrdered]
  | cons q qs ih =>
    intro hord hfresh
    rcases List.pairwise_cons.mp hord with ⟨hq, hqs⟩
    rw [enqueueInsert_cons]
    by_cases hp : q.priority < r.priority
    · rw [if_pos hp]
      refine List.pairwise_cons.mpr ⟨?_, hord⟩
      intro y hy
      rcases List.mem_cons.mp hy with rfl | hy'
      · exact Or.inl hp
      · rcases hq y hy' with h | h
        · exact Or.inl (lt_trans h hp)
        · exact Or.inl (h.1 ▸ hp)
    · rw [if_neg hp]
      refine List.pairwise_cons.mpr ⟨?_, ih hqs (fun x hx => hfresh x (by simp [hx]))⟩
      intro y hy
      rcases (mem_enqueueInsert r y qs).mp hy with rfl | hy'
      · rcases lt_or_eq_of_le (not_lt.mp hp) with h | h
        · exact Or.inl h
        · exact Or.inr ⟨h.symm, hfresh q (by simp)⟩
      · exact hq y hy'

/-- Building the queue from any arrival sequence keeps it ordered. -/
theorem enqueueAllAux_ordered :
    ∀ (ps : List Int) (n : Nat) (queue : List QueuedRequest),
      QueueOrdered queue → (∀ x ∈ queue, x.seq < n) →
      QueueOrdered (enqueueAllAux ps n queue) ∧
        ∀ x ∈ enqueueAllAux ps n queue, x.seq < n + ps.length := by
  intro ps
  induction ps with
  | nil =>
    intro n queue hord hseq
    exact ⟨hord, fun x hx => by simpa using hseq x hx⟩
  | cons p ps ih =>
    intro n queue hord hseq
    have hord' := enqueueInsert_ordered ⟨p, n⟩ queue hord hseq
    have hseq' : ∀ x ∈ enqueueInsert queue ⟨p, n⟩, x.seq < n + 1 := by
      intro x hx
      rcases (mem_enqueueInsert ⟨p, n⟩ x queue).mp hx with rfl | hx'
      · simp
      · exact lt_trans (hseq x hx') (Nat.lt_succ_self n)
    have := ih (n + 1) (enqueueInsert queue ⟨p, n⟩) hord' hseq'
    refine ⟨this.1, fun x hx => ?_⟩
    have := this.2 x hx
    simpa [Nat.add_assoc, Nat.add_comm, Nat.add_left_comm] using
      Nat.lt_of_lt_of_le this (by omega)

/-- Elements before the insertion point do not have strictly lower priority. -/
theorem findIdx_take_not (p : QueuedRequest → Bool) :
    ∀ queue : List QueuedRequest, ∀ x ∈ queue.take (queue.findIdx p), p x = false := by
  intro queue
  induction queue with
  | nil => simp
  | cons q qs ih =>
    intro x hx
    rw [List.findIdx_cons] at hx
    cases hq : p q with
    | true => simp [hq] at hx
    | false =>
      rw [hq] at hx
      simp only [cond_false, List.take_succ_cons, List.mem_cons] at hx
      rcases hx with rfl | hx'
      · exact hq
      · exact ih x hx'

/-- C4: the queue ordering invariant — no request of lower priority precedes
one of higher priority, and equal-priority requests keep arrival order — is
preserved by `enqueue`'s stable insertion and holds for any arrival sequence;
moreover the request is inserted at the first index holding a strictly lower
priority (everything before the insertion point has priority ≥ the new one,
and the element at the insertion point, when it exists, has strictly lower
priority). -/
theorem priority_queue_order_spec :
    (∀ (queue : List QueuedRequest) (r : QueuedRequest),
        QueueOrdered queue → (∀ x ∈ queue, x.seq < r.seq) →
        QueueOrdered (enqueueInsert queue r)) ∧
    (∀ ps : List Int, QueueOrdered (enqueueAll ps)) ∧
    (∀ (queue : List QueuedRequest) (r : QueuedRequest),
        (∀ x ∈ queue.take (queue.findIdx (fun q => q.priority < r.priority)),
          ¬ x.priority < r.priority) ∧
        (∀ h : queue.findIdx (fun q => q.priority < r.priority) < queue.length,
          (queue.get ⟨queue.findIdx (fun q => q.priority < r.priority), h⟩).priority
            < r.priority)) := by
  refine ⟨fun queue r => enqueueInsert_ordered r queue, ?_, ?_⟩
  · intro ps
    exact (enqueueAllAux_ordered ps 0 [] (by simp [QueueOrdered]) (by simp)).1
  · intro queue r
    constructor
    · intro x hx
      have := findIdx_take_not (fun q => q.priority < r.priority) queue x hx
      simpa using this
    · intro h
      have := List.findIdx_getElem (w := h)
      simpa [List.get_eq_getElem] using this

/-- Witness for C4 at concrete inputs: inserting priority 3 after the equal
and higher priorities but before the strictly lower one. -/
def demoQueue : List QueuedRequest := [⟨5, 0⟩, ⟨3, 1⟩, ⟨2, 2⟩]

theorem priority_queue_order_spec_witness :
    QueueOrdered demoQueue ∧
    (∀ x ∈ demoQueue, x.seq < 3) ∧
    QueueOrdered (enqueueInsert demoQueue ⟨3, 3⟩) ∧
    QueueOrdered (enqueueAll [2, 5, 3, 3, 10]) ∧
    (∀ h : demoQueue.findIdx (fun q => q.priority < (3 : Int)) < demoQueue.length,
      (demoQueue.get
        ⟨demoQueue.findIdx (fun q => q.priority < (3 : Int)), h⟩).priority < 3) :=
  ⟨by decide, by decide,
   priority_queue_order_spec.1 demoQueue ⟨3, 3⟩ (by decide) (by decide),
   priority_queue_order_spec.2.1 [2, 5, 3, 3, 10],
   (priority_queue_order_spec.2.2 demoQueue ⟨3, 3⟩).2⟩

/-! ## C8/C9: drain-loop lifecycle (enqueue / processQueue / clearQueue)

The event-loop granularity of the model: `enqueueCmd` is the synchronous part
of `enqueue` (lines 163-190) together with the synchronous prefix of the
`processQueue` it invokes (lines 195-201: the `isProcessing` guard, setting
the flag, and the first `shift`); `stepCmd` is one resumption of the
suspended drain loop (settle the current request — `resolve` on line 217 or
`reject` on line 220 — then `shift` the next request or exit, line 224);
`clearCmd` is `clearQueue` (lines 249-252), which replaces the queue with
`[]` without settling the dropped requests.  Requests are identified by their
arrival number `seq`. -/

structure QueueSys where
  queue : List QueuedRequest
  isProcessing : Bool
  executing : Option Nat
  settled : List Nat
  nextId : Nat
  drains : Nat
  deriving Repr, DecidableEq

def QueueSys.enqueueCmd (s : QueueSys) (p : Int) : QueueSys :=
  let q1 := enqueueInsert s.queue ⟨p, s.nextId⟩
  if s.isProcessing then
    { s with queue := q1, nextId := s.nextId + 1 }
  else
    match q1 with
    | [] => { s with queue := [], nextId := s.nextId + 1 }
    | r :: rest =>
      { queue := rest, isProcessing := true, executing := some r.seq,
        settled := s.settled, nextId := s.nextId + 1, drains := s.drains + 1 }

def QueueSys.clearCmd (s : QueueSys) : QueueSys :=
  { s with queue := [] }

def QueueSys.stepCmd (s : QueueSys) : QueueSys :=
  match s.executing with
  | none => s
  | some id =>
    match s.queue with
    | [] =>
      { s with
          executing := none
          settled := id :: s.settled
          isProcessing := false
          drains := s.drains - 1 }
    | r :: rest =>
      { s with
          queue := rest
          executing := some r.seq
          settled := id :: s.settled }

inductive QCmd where
  | enqueue (p : Int)
  | clear
  | step
  deriving Repr, DecidableEq

def applyCmd (s : QueueSys) : QCmd → QueueSys
  | .enqueue p => s.enqueueCmd p
  | .clear => s.clearCmd
  | .step => s.stepCmd

def runCmds (s : QueueSys) : List QCmd → QueueSys
  | [] => s
  | c :: cs => runCmds (applyCmd s c) cs

def initSys : QueueSys := ⟨[], false, none, [], 0, 0⟩

def stepN : Nat → QueueSys → QueueSys
  | 0, s => s
  | n + 1, s => stepN n s.stepCmd

/-- Let the suspended drain loop run to completion. -/
def finishQueue (s : QueueSys) : QueueSys :=
  stepN (s.queue.length + 1) s

/-- The number of active drain loops is the `isProcessing` flag. -/
def DrainsOK (s : QueueSys) : Prop :=
  s.drains = (if s.isProcessing then 1 else 0)

/-- Well-formedness of the lifecycle: an idle system has an empty queue and
nothing executing, and an active drain is always executing something. -/
def WFSys (s : QueueSys) : Prop :=
  (s.isProcessing = false → s.queue = [] ∧ s.executing = none) ∧
  (s.isProcessing = true → s.executing ≠ none)

theorem drainsOK_apply (s : QueueSys) (c : QCmd) (h : DrainsOK s) :
    DrainsOK (applyCmd s c) := by
  cases c with
  | enqueue p =>
    simp only [applyCmd, QueueSys.enqueueCmd]
    by_cases hp : s.isProcessing
    · simpa [hp, DrainsOK] using h
    · rcases hq : enqueueInsert s.queue ⟨p, s.nextId⟩ with _ | ⟨r, rest⟩
      · simpa [hp, hq, DrainsOK] using h
      · simp only [hq, DrainsOK] at *
        simp [hp] at h
        simp [hp, h]
  | clear => simpa [applyCmd, QueueSys.clearCmd, DrainsOK] using h
  | step =>
    simp only [applyCmd, QueueSys.stepCmd]
    rcases s.executing with _ | id
    · exact h
    · rcases hq : s.queue with _ | ⟨r, rest⟩
      · simp only [DrainsOK] at *
        by_cases hp : s.isProcessing <;> simp [hp] at h <;> simp [h]
      · simpa [DrainsOK] using h

theorem drainsOK_run (cmds : List QCmd) :
    ∀ s : QueueSys, DrainsOK s → DrainsOK (runCmds s cmds) := by
  induction cmds with
  | nil => intro s h; exact h
  | cons c cs ih => intro s h; exact ih (applyCmd s c) (drainsOK_apply s c h)

/-- C9: at most one drain loop is active at any time — along any command
sequence from the initial state the number of active drains never exceeds 1,
and an enqueue that occurs while a drain is active does not start a second
one. -/
theorem single_drain_spec :
    ∀ cmds : List QCmd,
      (runCmds initSys cmds).drains ≤ 1 ∧
      ((runCmds initSys cmds).isProcessing = true →
        ∀ p : Int,
          ((runCmds initSys cmds).enqueueCmd p).drains = (runCmds initSys cmds).drains) := by
  intro cmds
  have h : DrainsOK (runCmds initSys cmds) :=
    drainsOK_run cmds initSys (by simp [DrainsOK, initSys])
  constructor
  · rw [DrainsOK] at h
    split at h <;> omega
  · intro hp p
    simp [QueueSys.enqueueCmd, hp]

/-- Witness for C9: after one enqueue a drain is active, and a further
enqueue does not start a second one. -/
theorem single_drain_spec_witness :
    (runCmds initSys [QCmd.enqueue 5]).drains ≤ 1 ∧
    (runCmds initSys [QCmd.enqueue 5]).isProcessing = true ∧
    ((runCmds initSys [QCmd.enqueue 5]).enqueueCmd 7).drains
      = (runCmds initSys [QCmd.enqueue 5]).drains :=
  ⟨(single_drain_spec [QCmd.enqueue 5]).1, by decide,
   (single_drain_spec [QCmd.enqueue 5]).2 (by decide) 7⟩

/-! ## C8: settlement of enqueued requests -/

/-- The request `id` has been allocated but is gone from every component that
could still settle it: it was dropped. -/
def Lost (s : QueueSys) (id : Nat) : Prop :=
  id < s.nextId ∧ id ∉ s.settled ∧ s.executing ≠ some id ∧
    id ∉ s.queue.map QueuedRequest.seq

/-- No continuation of the system ever settles `id`. -/
def neverSettled (s : QueueSys) (id : Nat) : Prop :=
  ∀ cmds : List QCmd, id ∉ (runCmds s cmds).settled

theorem seq_mem_enqueueInsert {queue : List QueuedRequest} {r : QueuedRequest}
    {x : Nat} (h : x ∈ (enqueueInsert queue r).map QueuedRequest.seq) :
    x = r.seq ∨ x ∈ queue.map QueuedRequest.seq := by
  rcases List.mem_map.mp h with ⟨a, ha, rfl⟩
  rcases (mem_enqueueInsert r a queue).mp ha with rfl | ha'
  · exact Or.inl rfl
  · exact Or.inr (List.mem_map.mpr ⟨a, ha', rfl⟩)

/-- A dropped request stays dropped under every command. -/
theorem lost_applyCmd {s : QueueSys} {id : Nat} (h : Lost s id) (c : QCmd) :
    Lost (applyCmd s c) id := by
  obtain ⟨hn, hs, he, hq⟩ := h
  cases c with
  | enqueue p =>
    have hq1 : id ∉ (enqueueInsert s.queue ⟨p, s.nextId⟩).map QueuedRequest.seq := by
      intro hmem
      rcases seq_mem_enqueueInsert hmem with h | h
      · simp at h
        omega
      · exact hq h
    simp only [applyCmd, QueueSys.enqueueCmd]
    by_cases hp : s.isProcessing
    · simp only [if_pos hp]
      exact ⟨Nat.lt_succ_of_lt hn, hs, he, hq1⟩
    · simp only [if_neg hp]
      rcases h1 : enqueueInsert s.queue ⟨p, s.nextId⟩ with _ | ⟨rr, rest⟩
      · exact ⟨Nat.lt_succ_of_lt hn, hs, he, by simp⟩
      · rw [h1] at hq1
        refine ⟨Nat.lt_succ_of_lt hn, hs, ?_, ?_⟩
        · intro hcon
          simp only [Option.some.injEq] at hcon
          exact hq1 (by simp [hcon])
        · intro hcon
          refine hq1 ?_
          rw [List.map_cons]
          exact List.mem_cons_of_mem _ hcon
  | clear =>
    exact ⟨hn, hs, he, by simp [applyCmd, QueueSys.clearCmd]⟩
  | step =>
    simp only [applyCmd, QueueSys.stepCmd]
    rcases hex : s.executing with _ | eid
    · exact ⟨hn, hs, he, hq⟩
    · have hid : eid ≠ id := by
        intro hcon
        rw [hex, hcon] at he
        exact he rfl
      rcases hqq : s.queue with _ | ⟨r, rest⟩
      · refine ⟨hn, ?_, by simp, by simp⟩
        simp only [List.mem_cons]
        rintro (rfl | hcon)
        · exact hid rfl
        · exact hs hcon
      · rw [hqq] at hq
        refine ⟨hn, ?_, ?_, ?_⟩
        · simp only [List.mem_cons]
          rintro (rfl | hcon)
          · exact hid rfl
          · exact hs hcon
        · intro hcon
          simp only [Option.some.injEq] at hcon
          exact hq (by simp [hcon])
        · intro hcon
          refine hq ?_
          rw [List.map_cons]
          exact List.mem_cons_of_mem _ hcon

theorem lost_run {s : QueueSys} {id : Nat} (h : Lost s id) :
    ∀ cmds : List QCmd, Lost (runCmds s cmds) id := by
  intro cmds
  induction cmds generalizing s with
  | nil => exact h
  | cons c cs ih => exact ih (lost_applyCmd h c)

theorem lost_neverSettled {s : QueueSys} {id : Nat} (h : Lost s id) :
    neverSettled s id :=
  fun cmds => (lost_run h cmds).2.1

/-- `enqueue A; enqueue B; clearQueue` while the drain is suspended on A:
B is dropped without ever being settled. -/
def lostDemo : List QCmd := [QCmd.enqueue 0, QCmd.enqueue 0, QCmd.clear, QCmd.step]

/-- C8 counterexample: request 1 is enqueued (it sits in the queue right
after its enqueue) but `clearQueue` removes it while the drain loop is
suspended executing request 0; afterwards only request 0 ever settles and no
continuation of the system can settle request 1 — its future stays pending
forever, contradicting the claim that every enqueued request is eventually
settled under any sequence of queue operations. -/
theorem request_settlement_counterexample :
    (runCmds initSys (lostDemo.take 2)).queue.map QueuedRequest.seq = [1] ∧
    (runCmds initSys lostDemo).settled = [0] ∧
    neverSettled (runCmds initSys lostDemo) 1 :=
  ⟨by decide, by decide,
   lost_neverSettled (by unfold Lost; decide)⟩

/-! Positive part: without `clearQueue`, every enqueued request settles. -/

/-- Every allocated request id is still reachable by the drain loop. -/
def Accounted (s : QueueSys) : Prop :=
  ∀ id : Nat, id < s.nextId →
    id ∈ s.settled ∨ s.executing = some id ∨ id ∈ s.queue.map QueuedRequest.seq

theorem stepCmd_settled_sub (s : QueueSys) : s.settled ⊆ s.stepCmd.settled := by
  unfold QueueSys.stepCmd
  rcases s.executing with _ | eid
  · exact fun x hx => hx
  · rcases s.queue with _ | ⟨r, rest⟩
    · exact fun x hx => by simp [hx]
    · exact fun x hx => by simp [hx]

theorem stepN_settled_sub : ∀ (n : Nat) (s : QueueSys), s.settled ⊆ (stepN n s).settled := by
  intro n
  induction n with
  | zero => exact fun s x hx => hx
  | succ n ih =>
    intro s x hx
    exact ih s.stepCmd (stepCmd_settled_sub s hx)

theorem wf_stepCmd {s : QueueSys} (h : WFSys s) : WFSys s.stepCmd := by
  obtain ⟨h1, h2⟩ := h
  unfold QueueSys.stepCmd
  rcases hex : s.executing with _ | eid
  · exact ⟨h1, h2⟩
  · rcases hqq : s.queue with _ | ⟨r, rest⟩
    · refine ⟨fun _ => ⟨rfl, rfl⟩, ?_⟩
      simp
    · have hp : s.isProcessing = true := by
        by_contra hcon
        have := (h1 (by simpa using hcon)).1
        rw [hqq] at this
        exact List.cons_ne_nil r rest this
      refine ⟨fun hcon => absurd hcon ?_, ?_⟩
      · simp [hp]
      · simp

theorem wf_applyCmd {s : QueueSys} (h : WFSys s) (c : QCmd) : WFSys (applyCmd s c) := by
  obtain ⟨h1, h2⟩ := h
  cases c with
  | enqueue p =>
    simp only [applyCmd, QueueSys.enqueueCmd]
    by_cases hp : s.isProcessing
    · simp only [if_pos hp]
      refine ⟨fun hcon => absurd hcon ?_, fun _ => h2 hp⟩
      simp [hp]
    · simp only [if_neg hp]
      rcases h1q : enqueueInsert s.queue ⟨p, s.nextId⟩ with _ | ⟨rr, rest⟩
      · have hpf : s.isProcessing = false := by simpa using hp
        refine ⟨fun _ => ⟨rfl, (h1 hpf).2⟩, fun hcon => absurd hcon ?_⟩
        simp [hpf]
      · refine ⟨fun hcon => absurd hcon ?_, ?_⟩
        · simp
        · simp
  | clear =>
    refine ⟨fun hcon => ⟨rfl, (h1 hcon).2⟩, fun hcon => h2 hcon⟩
  | step => exact wf_stepCmd ⟨h1, h2⟩

theorem accounted_applyCmd {s : QueueSys} (hwf : WFSys s) (hacc : Accounted s) :
    ∀ c : QCmd, c ≠ QCmd.clear → Accounted (applyCmd s c) := by
  intro c hc
  cases c with
  | enqueue p =>
    simp only [applyCmd, QueueSys.enqueueCmd]
    have hnewmem : (s.nextId : Nat) ∈
        (enqueueInsert s.queue ⟨p, s.nextId⟩).map QueuedRequest.seq :=
      List.mem_map.mpr ⟨⟨p, s.nextId⟩, (mem_enqueueInsert _ _ _).mpr (Or.inl rfl), rfl⟩
    have holdmem : ∀ x : Nat, x ∈ s.queue.map QueuedRequest.seq →
        x ∈ (enqueueInsert s.queue ⟨p, s.nextId⟩).map QueuedRequest.seq := by
      intro x hx
      rcases List.mem_map.mp hx with ⟨a, ha, rfl⟩
      exact List.mem_map.mpr ⟨a, (mem_enqueueInsert _ _ _).mpr (Or.inr ha), rfl⟩
    by_cases hp : s.isProcessing
    · simp only [if_pos hp]
      intro id hid
      rcases Nat.lt_succ_iff_lt_or_eq.mp hid with hid' | rfl
      · rcases hacc id hid' with h | h | h
        · exact Or.inl h
        · exact Or.inr (Or.inl h)
        · exact Or.inr (Or.inr (holdmem id h))
      · exact Or.inr (Or.inr hnewmem)
    · simp only [if_neg hp]
      have hpf : s.isProcessing = false := by simpa using hp
      have hqnil : s.queue = [] := (hwf.1 hpf).1
      have hexn : s.executing = none := (hwf.1 hpf).2
      rcases h1q : enqueueInsert s.queue ⟨p, s.nextId⟩ with _ | ⟨rr, rest⟩
      · rw [hqnil, enqueueInsert_nil] at h1q
        cases h1q
      · rw [hqnil, enqueueInsert_nil] at h1q
        injection h1q with hrr hrest
        intro id hid
        rcases Nat.lt_succ_iff_lt_or_eq.mp hid with hid' | rfl
        · rcases hacc id hid' with h | h | h
          · exact Or.inl h
          · rw [hexn] at h; cases h
          · rw [hqnil] at h; cases h
        · subst hrr
          exact Or.inr (Or.inl rfl)
  | clear => exact absurd rfl hc
  | step =>
    simp only [applyCmd, QueueSys.stepCmd]
    rcases hex : s.executing with _ | eid
    · intro id hid
      rcases hacc id hid with h | h | h
      · exact Or.inl h
      · rw [hex] at h; cases h
      · exact Or.inr (Or.inr h)
    · rcases hqq : s.queue with _ | ⟨r, rest⟩
      · intro id hid
        rcases hacc id hid with h | h | h
        · exact Or.inl (by simp [h])
        · rw [hex] at h
          injection h with h
          exact Or.inl (by simp [h])
        · rw [hqq] at h; cases h
      · intro id hid
        rcases hacc id hid with h | h | h
        · exact Or.inl (by simp [h])
        · rw [hex] at h
          injection h with h
          exact Or.inl (by simp [h])
        · rw [hqq] at h
          rcases List.mem_map.mp h with ⟨a, ha, rfl⟩
          rcases List.mem_cons.mp ha with rfl | ha'
          · exact Or.inr (Or.inl rfl)
          · exact Or.inr (Or.inr (List.mem_map.mpr ⟨a, ha', rfl⟩))

theorem wf_accounted_run :
    ∀ cmds : List QCmd, QCmd.clear ∉ cmds → ∀ s : QueueSys,
      WFSys s → Accounted s →
      WFSys (runCmds s cmds) ∧ Accounted (runCmds s cmds) := by
  intro cmds
  induction cmds with
  | nil => exact fun _ s hwf hacc => ⟨hwf, hacc⟩
  | cons c cs ih =>
    intro hnc s hwf hacc
    have hc : c ≠ QCmd.clear := fun hcon => hnc (hcon ▸ List.mem_cons_self c cs)
    have hcs : QCmd.clear ∉ cs := fun hcon => hnc (List.mem_cons_of_mem c hcon)
    exact ih hcs (applyCmd s c) (wf_applyCmd hwf c) (accounted_applyCmd hwf hacc c hc)

/-- Draining settles every reachable request. -/
theorem stepN_settles :
    ∀ (n : Nat) (s : QueueSys), s.queue.length ≤ n → WFSys s →
      ∀ id : Nat,
        (id ∈ s.settled ∨ s.executing = some id ∨ id ∈ s.queue.map QueuedRequest.seq) →
        id ∈ (stepN (n + 1) s).settled := by
  intro n
  induction n with
  | zero =>
    intro s hlen hwf id hopt
    have hqnil : s.queue = [] := List.length_eq_zero.mp (Nat.le_zero.mp hlen)
    show id ∈ s.stepCmd.settled
    unfold QueueSys.stepCmd
    rcases hex : s.executing with _ | eid
    · rcases hopt with h | h | h
      · exact h
      · rw [hex] at h; cases h
      · rw [hqnil] at h; cases h
    · rw [hqnil]
      rcases hopt with h | h | h
      · simp [h]
      · rw [hex] at h
        injection h with h
        simp [h]
      · rw [hqnil] at h; cases h
  | succ n ih =>
    intro s hlen hwf id hopt
    show id ∈ (stepN (n + 1) s.stepCmd).settled
    rcases hex : s.executing with _ | eid
    · have hpf : s.isProcessing = false := by
        by_contra hcon
        exact (hwf.2 (by simpa using hcon)) hex
      have hqnil : s.queue = [] := (hwf.1 hpf).1
      have hstep : s.stepCmd = s := by
        unfold QueueSys.stepCmd
        rw [hex]
      rw [hstep]
      rcases hopt with h | h | h
      · exact stepN_settled_sub (n + 1) s h
      · rw [hex] at h; cases h
      · rw [hqnil] at h; cases h
    · rcases hqq : s.queue with _ | ⟨r, rest⟩
      · have hstep : s.stepCmd =
            { s with
                executing := none
                settled := eid :: s.settled
                isProcessing := false
                drains := s.drains - 1 } := by
          unfold QueueSys.stepCmd
          rw [hex, hqq]
        rw [hstep]
        refine stepN_settled_sub (n + 1) _ ?_
        rcases hopt with h | h | h
        · simp [h]
        · rw [hex] at h
          injection h with h
          simp [h]
        · rw [hqq] at h; cases h
      · have hstep : s.stepCmd =
            { s with
                queue := rest
                executing := some r.seq
                settled := eid :: s.settled } := by
          unfold QueueSys.stepCmd
          rw [hex, hqq]
        rw [hstep]
        refine ih _ ?_ ?_ id ?_
        · show rest.length ≤ n
          have hl := hlen
          rw [hqq] at hl
          simp only [List.length_cons] at hl
          omega
        · have := wf_stepCmd hwf
          rw [hstep] at this
          exact this
        · rcases hopt with h | h | h
          · exact Or.inl (by simp [h])
          · rw [hex] at h
            injection h with h
            exact Or.inl (by simp [h])
          · rw [hqq] at h
            rcases List.mem_map.mp h with ⟨a, ha, rfl⟩
            rcases List.mem_cons.mp ha with rfl | ha'
            · exact Or.inr (Or.inl rfl)
            · exact Or.inr (Or.inr (List.mem_map.mpr ⟨a, ha', rfl⟩))

/-- C8 (amended): once enqueued, a request's future is eventually settled —
executed, rejected with the quota error, or rejected with the admission
timeout — provided `clearQueue` is never invoked; a request still sitting in
the queue when `clearQueue` runs is dropped and its future never settles
(see the counterexample). -/
theorem request_settlement_spec :
    ∀ cmds : List QCmd, QCmd.clear ∉ cmds →
      ∀ id : Nat, id < (runCmds initSys cmds).nextId →
        id ∈ (finishQueue (runCmds initSys cmds)).settled := by
  intro cmds hnc id hid
  have hinit : WFSys initSys ∧ Accounted initSys := by
    constructor
    · exact ⟨fun _ => ⟨rfl, rfl⟩, fun hcon => by cases hcon⟩
    · intro i hi
      cases hi
  obtain ⟨hwf, hacc⟩ := wf_accounted_run cmds hnc initSys hinit.1 hinit.2
  exact stepN_settles _ _ (Nat.le_refl _) hwf id (hacc id hid)

/-- Witness for C8 (amended) on a concrete clear-free command sequence. -/
theorem request_settlement_spec_witness :
    QCmd.clear ∉ [QCmd.enqueue 5, QCmd.enqueue 9] ∧
    1 < (runCmds initSys [QCmd.enqueue 5, QCmd.enqueue 9]).nextId ∧
    1 ∈ (finishQueue (runCmds initSys [QCmd.enqueue 5, QCmd.enqueue 9])).settled :=
  ⟨by decide, by decide,
   request_settlement_spec [QCmd.enqueue 5, QCmd.enqueue 9] (by decide) 1 (by decide)⟩

/-! ## CacheService (cacheService.ts): two-tier TTL cache

Keys are `List Char` (substring reasoning is needed for `invalidateSymbol`).
Both the JS `Map` memory tier and the `localStorage` durable tier are
modelled as association lists; `localStorage` holds the JSON-serialized
entry under the `av_cache_`-prefixed key (serialization is faithful in the
model, so the stored value is the entry itself). -/

abbrev KVMap (α : Type) : Type := List (List Char × α)

def mapFind {α : Type} : KVMap α → List Char → Option α
  | [], _ => none
  | e :: rest, k => if e.1 = k then some e.2 else mapFind rest k

def mapErase {α : Type} : KVMap α → List Char → KVMap α
  | [], _ => []
  | e :: rest, k => if e.1 = k then mapErase rest k else e :: mapErase rest k

def mapInsert {α : Type} (m : KVMap α) (k : List Char) (v : α) : KVMap α :=
  (k, v) :: mapErase m k

def mapKeys {α : Type} (m : KVMap α) : List (List Char) :=
  m.map (fun e => e.1)

theorem mapFind_erase_self {α : Type} (m : KVMap α) (k : List Char) :
    mapFind (mapErase m k) k = none := by
  induction m with
  | nil => rfl
  | cons e rest ih =>
    by_cases h : e.1 = k
    · simpa [mapErase, h] using ih
    · simpa [mapErase, mapFind, h] using ih

theorem mapFind_erase_ne {α : Type} (m : KVMap α) (k k' : List Char) (h : k' ≠ k) :
    mapFind (mapErase m k) k' = mapFind m k' := by
  induction m with
  | nil => rfl
  | cons e rest ih =>
    simp only [mapErase]
    by_cases he : e.1 = k
    · have hne : ¬ e.1 = k' := by
        rw [he]
        intro hc
        exact h hc.symm
      rw [if_pos he, ih]
      simp only [mapFind, if_neg hne]
    · rw [if_neg he]
      simp only [mapFind]
      rw [ih]

theorem mapFind_insert_self {α : Type} (m : KVMap α) (k : List Char) (v : α) :
    mapFind (mapInsert m k v) k = some v := by
  simp [mapInsert, mapFind]

theorem mapFind_insert_ne {α : Type} (m : KVMap α) (k k' : List Char) (v : α)
    (h : k' ≠ k) : mapFind (mapInsert m k v) k' = mapFind m k' := by
  have hne : k ≠ k' := fun hc => h hc.symm
  simp only [mapInsert, mapFind, if_neg hne]
  exact mapFind_erase_ne m k k' h

theorem mapFind_some_mem_keys {α : Type} {m : KVMap α} {k : List Char} {v : α}
    (h : mapFind m k = some v) : k ∈ mapKeys m := by
  induction m with
  | nil => cases h
  | cons e rest ih =>
    by_cases he : e.1 = k
    · exact List.mem_cons.mpr (Or.inl he.symm)
    · rw [mapFind, if_neg he] at h
      exact List.mem_cons.mpr (Or.inr (ih h))

/-- `CacheEntry` (cacheService.ts lines 269-273). -/
structure CacheEntry (α : Type) where
  data : α
  timestamp : Int
  expiresAt : Int
  deriving Repr, DecidableEq

inductive CacheType where
  | QUOTE
  | DAILY_PRICES
  | OVERVIEW
  | FINANCIALS
  deriving Repr, DecidableEq

/-- `CACHE_DURATIONS` (lines 281-286). -/
def CACHE_DURATIONS : CacheType → Int
  | .QUOTE => 60 * 1000
  | .DAILY_PRICES => 60 * 60 * 1000
  | .OVERVIEW => 24 * 60 * 60 * 1000
  | .FINANCIALS => 24 * 60 * 60 * 1000

/-- The `av_cache_` namespace of `getStorageKey` (lines 291-293). -/
def avCacheNs : List Char := "av_cache_".data

def getStorageKey (key : List Char) : List Char := avCacheNs ++ key

structure CacheState (α : Type) where
  memoryCache : KVMap (CacheEntry α)
  localStore : KVMap (CacheEntry α)
  deriving Repr, DecidableEq

def initCache (α : Type) : CacheState α := ⟨[], []⟩

/-- `CacheService.set` (lines 298-318): writes the entry with
`expiresAt = now + duration` to both tiers.  The `catch` branch
(localStorage quota exceeded, degrade to memory-only plus a best-effort
sweep) is the durable write's failure path and is not exercised by the
claims under verification, which assume the durable write succeeds. -/
def CacheService.set {α : Type} (st : CacheState α) (key : List Char) (d : α)
    (ty : CacheType) (now : Int) : CacheState α :=
  let entry : CacheEntry α := ⟨d, now, now + CACHE_DURATIONS ty⟩
  { memoryCache := mapInsert st.memoryCache key entry,
    localStore := mapInsert st.localStore (getStorageKey key) entry }

/-- `CacheService.delete` (lines 370-373): removes from both tiers. -/
def CacheService.delete {α : Type} (st : CacheState α) (key : List Char) :
    CacheState α :=
  { memoryCache := mapErase st.memoryCache key,
    localStore := mapErase st.localStore (getStorageKey key) }

/-- `CacheService.get` (lines 323-358): memory tier first, then the durable
tier (restoring into memory), then the lazy expiry check, which deletes the
entry from both tiers when `now > expiresAt`. -/
def CacheService.get {α : Type} (st : CacheState α) (key : List Char) (now : Int) :
    Option α × CacheState α :=
  match mapFind st.memoryCache key with
  | some entry =>
    if now > entry.expiresAt then (none, CacheService.delete st key)
    else (some entry.data, st)
  | none =>
    match mapFind st.localStore (getStorageKey key) with
    | some entry =>
      let st1 : CacheState α := { st with memoryCache := mapInsert st.memoryCache key entry }
      if now > entry.expiresAt then (none, CacheService.delete st1 key)
      else (some entry.data, st1)
    | none => (none, st)

/-- `key.replace('av_cache_', '')`: remove the first occurrence of `pat`. -/
def replaceOnce : List Char → List Char → List Char
  | [], _ => []
  | c :: rest, pat =>
    if pat.isPrefixOf (c :: rest) then (c :: rest).drop pat.length
    else c :: replaceOnce rest pat

/-- `CacheService.invalidateSymbol` (lines 446-468): collect the memory keys
containing the symbol and the `av_cache_`-prefixed storage keys containing
the symbol (stripped of the prefix), then delete each collected key from
both tiers.  JS `String.includes` is substring containment (`<:+:`). -/
def CacheService.invalidateSymbol {α : Type} (st : CacheState α)
    (symbol : List Char) : CacheState α :=
  let memKeys := (mapKeys st.memoryCache).filter (fun k => decide (symbol <:+: k))
  let storeKeys := ((mapKeys st.localStore).filter
      (fun k => avCacheNs.isPrefixOf k && decide (symbol <:+: k))).map
      (fun k => replaceOnce k avCacheNs)
  let keysToDelete := memKeys ++ storeKeys
  keysToDelete.foldl (fun s k => CacheService.delete s k) st

/-! ## C5: set/get traces and TTL semantics -/

inductive CacheOp (α : Type) where
  | set (key : List Char) (d : α) (ty : CacheType)
  | get (key : List Char)

/-- Run a timed trace of `set`/`get` calls. -/
def runCache {α : Type} (st : CacheState α) : List (CacheOp α × Int) → CacheState α
  | [] => st
  | (CacheOp.set k d ty, t) :: rest => runCache (CacheService.set st k d ty t) rest
  | (CacheOp.get k, t) :: rest => runCache (CacheService.get st k t).2 rest

/-- The most recent `set` for each key along a trace (value, category, time). -/
def applyOps {α : Type} (A : List Char → Option (α × CacheType × Int)) :
    List (CacheOp α × Int) → List Char → Option (α × CacheType × Int)
  | [], k => A k
  | (CacheOp.set k0 d ty, t) :: rest, k =>
    applyOps (fun k' => if k' = k0 then some (d, ty, t) else A k') rest k
  | (CacheOp.get _, _) :: rest, k => applyOps A rest k

def lastSetOf {α : Type} (ops : List (CacheOp α × Int)) (k : List Char) :
    Option (α × CacheType × Int) :=
  applyOps (fun _ => none) ops k

/-- Trace times are non-decreasing and start at or after `T`. -/
def TimesOK {α : Type} : Int → List (CacheOp α × Int) → Prop
  | _, [] => True
  | T, (_, t) :: rest => T ≤ t ∧ TimesOK t rest

def endT {α : Type} : Int → List (CacheOp α × Int) → Int
  | T, [] => T
  | _, (_, t) :: rest => endT t rest

/-- State invariant for set/get traces relative to the last-set map `A` and a
bound `T` on all past operation times: the two tiers agree pointwise, and
each key holds exactly the entry of its last `set` unless that entry already
expired and was lazily purged by a past `get`. -/
def InvCache {α : Type} (st : CacheState α)
    (A : List Char → Option (α × CacheType × Int)) (T : Int) : Prop :=
  ∀ k : List Char,
    mapFind st.memoryCache k = mapFind st.localStore (getStorageKey k) ∧
    (match A k with
     | none => mapFind st.memoryCache k = none
     | some (v, ty, t) =>
        mapFind st.memoryCache k = some ⟨v, t, t + CACHE_DURATIONS ty⟩ ∨
        (mapFind st.memoryCache k = none ∧ t + CACHE_DURATIONS ty < T))

theorem getStorageKey_inj {k k' : List Char} (h : getStorageKey k = getStorageKey k') :
    k = k' :=
  List.append_cancel_left h

theorem invCache_mono {α : Type} {st : CacheState α} {A : List Char → Option (α × CacheType × Int)}
    {T T' : Int} (h : InvCache st A T) (hT : T ≤ T') : InvCache st A T' := by
  intro k
  refine ⟨(h k).1, ?_⟩
  have h2 := (h k).2
  rcases hA : A k with _ | ⟨v, ty, t⟩
  · rw [hA] at h2
    exact h2
  · rw [hA] at h2
    rcases h2 with h2 | ⟨h2, h3⟩
    · exact Or.inl h2
    · exact Or.inr ⟨h2, lt_of_lt_of_le h3 hT⟩

theorem invCache_set {α : Type} {st : CacheState α}
    {A : List Char → Option (α × CacheType × Int)} {T : Int}
    (h : InvCache st A T) (k0 : List Char) (d : α) (ty : CacheType) (τ : Int)
    (hτ : T ≤ τ) :
    InvCache (CacheService.set st k0 d ty τ)
      (fun k => if k = k0 then some (d, ty, τ) else A k) τ := by
  intro k
  by_cases hk : k = k0
  · subst hk
    constructor
    · simp [CacheService.set, mapFind_insert_self]
    · simp [CacheService.set, mapFind_insert_self]
  · have hsk : getStorageKey k ≠ getStorageKey k0 := fun hc => hk (getStorageKey_inj hc)
    constructor
    · simp only [CacheService.set]
      rw [mapFind_insert_ne _ _ _ _ hk, mapFind_insert_ne _ _ _ _ hsk]
      exact (h k).1
    · simp only [CacheService.set, if_neg hk]
      rw [mapFind_insert_ne _ _ _ _ hk]
      have h2 := (h k).2
      rcases hA : A k with _ | ⟨v, ty', t⟩
      · rw [hA] at h2
        exact h2
      · rw [hA] at h2
        rcases h2 with h2 | ⟨h2, h3⟩
        · exact Or.inl h2
        · exact Or.inr ⟨h2, lt_of_lt_of_le h3 hτ⟩

theorem invCache_get {α : Type} {st : CacheState α}
    {A : List Char → Option (α × CacheType × Int)} {T : Int}
    (h : InvCache st A T) (k0 : List Char) (τ : Int) (hτ : T ≤ τ) :
    InvCache (CacheService.get st k0 τ).2 A τ := by
  have hbase : InvCache st A τ := invCache_mono h hτ
  unfold CacheService.get
  rcases hm : mapFind st.memoryCache k0 with _ | entry
  · -- memory miss: by the coupling, the durable tier misses too
    have hcouple := (hbase k0).1
    rw [hm] at hcouple
    rw [← hcouple]
    exact hbase
  · show InvCache
        (if τ > entry.expiresAt then ((none : Option α), CacheService.delete st k0)
         else (some entry.data, st)).2 A τ
    by_cases hexp : τ > entry.expiresAt
    · rw [if_pos hexp]
      -- expired: the entry is deleted from both tiers
      intro k
      by_cases hk : k = k0
      · subst hk
        constructor
        · simp [CacheService.delete, mapFind_erase_self]
        · have h2 := (hbase k).2
          rcases hA : A k with _ | ⟨v, ty, t⟩
          · simp [CacheService.delete, mapFind_erase_self]
          · rw [hA] at h2
            rcases h2 with h2 | ⟨h2, h3⟩
            · rw [hm] at h2
              injection h2 with h2
              refine Or.inr ⟨by simp [CacheService.delete, mapFind_erase_self], ?_⟩
              have hee : entry.expiresAt = t + CACHE_DURATIONS ty := by rw [h2]
              rw [← hee]
              exact hexp
            · rw [hm] at h2
              cases h2
      · have hsk : getStorageKey k ≠ getStorageKey k0 := fun hc => hk (getStorageKey_inj hc)
        constructor
        · simp only [CacheService.delete]
          rw [mapFind_erase_ne _ _ _ hk, mapFind_erase_ne _ _ _ hsk]
          exact (hbase k).1
        · have h2 := (hbase k).2
          rcases hA : A k with _ | ⟨v, ty, t⟩
          · rw [hA] at h2
            simp only [CacheService.delete]
            rw [mapFind_erase_ne _ _ _ hk]
            exact h2
          · rw [hA] at h2
            simp only [CacheService.delete]
            rw [mapFind_erase_ne _ _ _ hk]
            exact h2
    · rw [if_neg hexp]
      exact hbase

/-- `get` on a memory-tier hit. -/
theorem CacheService.get_mem_hit {α : Type} {st : CacheState α} {k : List Char}
    {e : CacheEntry α} (hm : mapFind st.memoryCache k = some e) (now : Int) :
    CacheService.get st k now =
      if now > e.expiresAt then (none, CacheService.delete st k)
      else (some e.data, st) := by
  unfold CacheService.get
  rw [hm]

/-- `get` when both tiers miss. -/
theorem CacheService.get_miss {α : Type} {st : CacheState α} {k : List Char}
    (hm : mapFind st.memoryCache k = none)
    (hs : mapFind st.localStore (getStorageKey k) = none) (now : Int) :
    CacheService.get st k now = (none, st) := by
  unfold CacheService.get
  rw [hm, hs]

theorem runCache_inv {α : Type} (ops : List (CacheOp α × Int)) :
    ∀ (st : CacheState α) (A : List Char → Option (α × CacheType × Int)) (T : Int),
      InvCache st A T → TimesOK T ops →
      InvCache (runCache st ops) (applyOps A ops) (endT T ops) := by
  induction ops with
  | nil => exact fun st A T h _ => h
  | cons e rest ih =>
    intro st A T h htimes
    obtain ⟨ht, hrest⟩ := htimes
    rcases e with ⟨op, t⟩
    cases op with
    | set k0 d ty =>
      exact ih (CacheService.set st k0 d ty t) _ t (invCache_set h k0 d ty t ht) hrest
    | get k0 =>
      exact ih (CacheService.get st k0 t).2 A t (invCache_get h k0 t ht) hrest

/-- C5: for all sequences of timed `set`/`get` calls (times non-decreasing),
a final `get k` returns the most recently `set` value for `k` while
`now ≤ expiresAt` (`expiresAt = set time + duration(category)`), and once
`expiresAt` has elapsed it returns absent and the entry is purged from both
the memory tier and the durable tier. -/
theorem cache_ttl_spec {α : Type} (b : Int) (ops : List (CacheOp α × Int))
    (k : List Char) (v : α) (ty : CacheType) (t now : Int)
    (hops : TimesOK b ops) (hnow : endT b ops ≤ now)
    (hlast : lastSetOf ops k = some (v, ty, t)) :
    ((CacheService.get (runCache (initCache α) ops) k now).1
        = if now ≤ t + CACHE_DURATIONS ty then some v else none) ∧
    (t + CACHE_DURATIONS ty < now →
      mapFind (CacheService.get (runCache (initCache α) ops) k now).2.memoryCache k = none ∧
      mapFind (CacheService.get (runCache (initCache α) ops) k now).2.localStore
          (getStorageKey k) = none) := by
  have hinv0 : InvCache (initCache α) (fun _ => none) b := by
    intro k'
    exact ⟨rfl, rfl⟩
  have hinv := invCache_mono (runCache_inv ops (initCache α) (fun _ => none) b hinv0 hops) hnow
  have hk := hinv k
  rw [show applyOps (fun _ => none) ops k = lastSetOf ops k from rfl, hlast] at hk
  obtain ⟨hcouple, hdisj⟩ := hk
  rcases hdisj with hmem | ⟨hmem, hexp⟩
  · -- the entry of the last set is present in both tiers
    rw [CacheService.get_mem_hit hmem now]
    by_cases hle : now ≤ t + CACHE_DURATIONS ty
    · have hnexp : ¬ (now > CacheEntry.expiresAt ⟨v, t, t + CACHE_DURATIONS ty⟩) :=
        not_lt.mpr hle
      rw [if_neg hnexp, if_pos hle]
      exact ⟨rfl, fun hc => absurd hle (not_le.mpr hc)⟩
    · have hexp' : now > CacheEntry.expiresAt ⟨v, t, t + CACHE_DURATIONS ty⟩ :=
        lt_of_not_le hle
      rw [if_pos hexp', if_neg hle]
      refine ⟨rfl, fun _ => ?_⟩
      constructor
      · simp [CacheService.delete, mapFind_erase_self]
      · simp [CacheService.delete, mapFind_erase_self]
  · -- already lazily purged by an earlier get: both tiers miss
    have hstore : mapFind (runCache (initCache α) ops).localStore (getStorageKey k) = none := by
      rw [← hcouple]
      exact hmem
    have hnle : ¬ now ≤ t + CACHE_DURATIONS ty := not_le.mpr hexp
    rw [CacheService.get_miss hmem hstore now, if_neg hnle]
    exact ⟨rfl, fun _ => ⟨hmem, hstore⟩⟩

/-- Concrete set/get trace for the C5 witness. -/
def ttlDemoOps : List (CacheOp Nat × Int) :=
  [(CacheOp.set "q".data 7 CacheType.QUOTE, 100), (CacheOp.get "q".data, 130)]

/-- Witness for C5: a quote cached at t=100 is returned at t=150 and is
absent (and purged from both tiers) at t=70000. -/
theorem cache_ttl_spec_witness :
    TimesOK 0 ttlDemoOps ∧
    lastSetOf ttlDemoOps "q".data = some (7, CacheType.QUOTE, 100) ∧
    (CacheService.get (runCache (initCache Nat) ttlDemoOps) "q".data 150).1 = some 7 ∧
    (CacheService.get (runCache (initCache Nat) ttlDemoOps) "q".data 70000).1 = none ∧
    mapFind (CacheService.get (runCache (initCache Nat) ttlDemoOps) "q".data 70000).2.localStore
      (getStorageKey "q".data) = none := by
  refine ⟨by simp [ttlDemoOps, TimesOK], by decide, ?_, ?_, ?_⟩
  · have := (cache_ttl_spec 0 ttlDemoOps "q".data 7 CacheType.QUOTE 100 150
      (by simp [ttlDemoOps, TimesOK]) (by simp [ttlDemoOps, endT]) (by decide)).1
    rw [this]
    decide
  · have := (cache_ttl_spec 0 ttlDemoOps "q".data 7 CacheType.QUOTE 100 70000
      (by simp [ttlDemoOps, TimesOK]) (by simp [ttlDemoOps, endT]) (by decide)).1
    rw [this]
    decide
  · exact ((cache_ttl_spec 0 ttlDemoOps "q".data 7 CacheType.QUOTE 100 70000
      (by simp [ttlDemoOps, TimesOK]) (by simp [ttlDemoOps, endT]) (by decide)).2 (by decide)).2

/-! ## C7: invalidateSymbol -/

theorem isPrefixOf_append (l₁ l₂ : List Char) : l₁.isPrefixOf (l₁ ++ l₂) = true := by
  induction l₁ with
  | nil => simp [List.isPrefixOf]
  | cons c rest ih => simpa [List.isPrefixOf] using ih

theorem replaceOnce_append (pat k : List Char) (h : pat ≠ []) :
    replaceOnce (pat ++ k) pat = k := by
  rcases pat with _ | ⟨c, pt⟩
  · exact absurd rfl h
  · show replaceOnce (c :: (pt ++ k)) (c :: pt) = k
    have hpre : (c :: pt).isPrefixOf (c :: (pt ++ k)) = true := by
      rw [← List.cons_append]
      exact isPrefixOf_append (c :: pt) k
    simp only [replaceOnce, hpre, if_true, List.length_cons, List.drop_succ_cons]
    exact List.drop_left pt k

def foldlDelete {α : Type} (ks : List (List Char)) (st : CacheState α) : CacheState α :=
  ks.foldl (fun s k => CacheService.delete s k) st

theorem foldlDelete_find {α : Type} (ks : List (List Char)) :
    ∀ (st : CacheState α) (k : List Char),
      (mapFind (foldlDelete ks st).memoryCache k
        = if k ∈ ks then none else mapFind st.memoryCache k) ∧
      (mapFind (foldlDelete ks st).localStore (getStorageKey k)
        = if k ∈ ks then none else mapFind st.localStore (getStorageKey k)) := by
  induction ks with
  | nil => intro st k; simp [foldlDelete]
  | cons j rest ih =>
    intro st k
    have hstep : foldlDelete (j :: rest) st = foldlDelete rest (CacheService.delete st j) := rfl
    rw [hstep]
    obtain ⟨ihm, ihs⟩ := ih (CacheService.delete st j) k
    by_cases hkr : k ∈ rest
    · constructor
      · rw [ihm, if_pos hkr, if_pos (List.mem_cons.mpr (Or.inr hkr))]
      · rw [ihs, if_pos hkr, if_pos (List.mem_cons.mpr (Or.inr hkr))]
    · by_cases hkj : k = j
      · subst hkj
        constructor
        · rw [ihm, if_neg hkr, if_pos (List.mem_cons.mpr (Or.inl rfl))]
          simp [CacheService.delete, mapFind_erase_self]
        · rw [ihs, if_neg hkr, if_pos (List.mem_cons.mpr (Or.inl rfl))]
          simp [CacheService.delete, mapFind_erase_self]
      · have hknot : k ∉ j :: rest := by
          simp [List.mem_cons]
          exact ⟨hkj, hkr⟩
        have hsk : getStorageKey k ≠ getStorageKey j := fun hc => hkj (getStorageKey_inj hc)
        constructor
        · rw [ihm, if_neg hkr, if_neg hknot]
          simp only [CacheService.delete]
          exact mapFind_erase_ne _ _ _ hkj
        · rw [ihs, if_neg hkr, if_neg hknot]
          simp only [CacheService.delete]
          exact mapFind_erase_ne _ _ _ hsk

theorem invalidateSymbol_eq_foldl {α : Type} (st : CacheState α) (symbol : List Char) :
    CacheService.invalidateSymbol st symbol =
      foldlDelete
        ((mapKeys st.memoryCache).filter (fun k => decide (symbol <:+: k)) ++
          ((mapKeys st.localStore).filter
            (fun k => avCacheNs.isPrefixOf k && decide (symbol <:+: k))).map
            (fun k => replaceOnce k avCacheNs))
        st := rfl

/-- Every collected key contains the symbol, given that storage keys are
namespaced and the symbol's occurrences ignore the namespace. -/
theorem mem_keysToDelete_contains {α : Type} {st : CacheState α} {symbol k : List Char}
    (hwf : ∀ j ∈ mapKeys st.localStore, avCacheNs <+: j)
    (htr : ∀ k' : List Char, symbol <:+: (avCacheNs ++ k') ↔ symbol <:+: k')
    (hk : k ∈ (mapKeys st.memoryCache).filter (fun k => decide (symbol <:+: k)) ++
      ((mapKeys st.localStore).filter
        (fun k => avCacheNs.isPrefixOf k && decide (symbol <:+: k))).map
        (fun k => replaceOnce k avCacheNs)) :
    symbol <:+: k := by
  rcases List.mem_append.mp hk with hm | hs
  · exact of_decide_eq_true (List.mem_filter.mp hm).2
  · rcases List.mem_map.mp hs with ⟨j, hj, rfl⟩
    obtain ⟨hjk, hjp⟩ := List.mem_filter.mp hj
    obtain ⟨hjpre, hjinf⟩ : avCacheNs.isPrefixOf j = true ∧ decide (symbol <:+: j) = true := by
      simpa using hjp
    obtain ⟨tail, rfl⟩ := hwf j hjk
    rw [replaceOnce_append avCacheNs tail (by decide)]
    exact (htr tail).mp (of_decide_eq_true hjinf)

/-- C7 (amended): provided the symbol's substring occurrences are unaffected
by the `av_cache_` namespace (true of real ticker symbols, whose characters
are disjoint from the namespace), `invalidateSymbol` removes from both tiers
exactly the entries whose key contains the symbol, and leaves every other
entry unchanged in both tiers; storage keys are assumed namespaced, as `set`
writes them. -/
theorem invalidate_symbol_spec {α : Type} (st : CacheState α) (symbol : List Char)
    (hwf : ∀ j ∈ mapKeys st.localStore, avCacheNs <+: j)
    (htr : ∀ k' : List Char, symbol <:+: (avCacheNs ++ k') ↔ symbol <:+: k') :
    ∀ k : List Char,
      (symbol <:+: k →
        mapFind (CacheService.invalidateSymbol st symbol).memoryCache k = none ∧
        mapFind (CacheService.invalidateSymbol st symbol).localStore (getStorageKey k) = none) ∧
      (¬ symbol <:+: k →
        mapFind (CacheService.invalidateSymbol st symbol).memoryCache k
          = mapFind st.memoryCache k ∧
        mapFind (CacheService.invalidateSymbol st symbol).localStore (getStorageKey k)
          = mapFind st.localStore (getStorageKey k)) := by
  intro k
  rw [invalidateSymbol_eq_foldl]
  obtain ⟨hm, hs⟩ := foldlDelete_find
    ((mapKeys st.memoryCache).filter (fun k => decide (symbol <:+: k)) ++
      ((mapKeys st.localStore).filter
        (fun k => avCacheNs.isPrefixOf k && decide (symbol <:+: k))).map
        (fun k => replaceOnce k avCacheNs)) st k
  constructor
  · intro hin
    constructor
    · rcases hfind : mapFind st.memoryCache k with _ | v
      · rw [hm]
        split
        · rfl
        · exact hfind
      · have hks : k ∈ (mapKeys st.memoryCache).filter (fun k => decide (symbol <:+: k)) :=
          List.mem_filter.mpr ⟨mapFind_some_mem_keys hfind, decide_eq_true hin⟩
        rw [hm, if_pos (List.mem_append.mpr (Or.inl hks))]
    · rcases hfind : mapFind st.localStore (getStorageKey k) with _ | v
      · rw [hs]
        split
        · rfl
        · exact hfind
      · have hjk : getStorageKey k ∈ mapKeys st.localStore := mapFind_some_mem_keys hfind
        have hjfil : getStorageKey k ∈ (mapKeys st.localStore).filter
            (fun k => avCacheNs.isPrefixOf k && decide (symbol <:+: k)) := by
          refine List.mem_filter.mpr ⟨hjk, ?_⟩
          rw [Bool.and_eq_true]
          exact ⟨isPrefixOf_append avCacheNs k, decide_eq_true ((htr k).mpr hin)⟩
        have hmapmem : k ∈ ((mapKeys st.localStore).filter
            (fun k => avCacheNs.isPrefixOf k && decide (symbol <:+: k))).map
            (fun k => replaceOnce k avCacheNs) := by
          refine List.mem_map.mpr ⟨getStorageKey k, hjfil, ?_⟩
          exact replaceOnce_append avCacheNs k (by decide)
        rw [hs, if_pos (List.mem_append.mpr (Or.inr hmapmem))]
  · intro hout
    have hnot : k ∉ (mapKeys st.memoryCache).filter (fun k => decide (symbol <:+: k)) ++
        ((mapKeys st.localStore).filter
          (fun k => avCacheNs.isPrefixOf k && decide (symbol <:+: k))).map
          (fun k => replaceOnce k avCacheNs) :=
      fun hmem => hout (mem_keysToDelete_contains hwf htr hmem)
    exact ⟨by rw [hm, if_neg hnot], by rw [hs, if_neg hnot]⟩

/-- A one-entry cache whose key does not contain the symbol "cache". -/
def c7Demo : CacheState Nat :=
  ⟨[("k".data, ⟨7, 0, 100⟩)], [(getStorageKey "k".data, ⟨7, 0, 100⟩)]⟩

/-- C7 counterexample: the durable-tier scan tests `includes(symbol)` against
the prefixed storage key `av_cache_k`, so `invalidateSymbol("cache")` deletes
the entry under key `k` from both tiers even though `k` does not contain
`cache` — the claim that entries whose key does not contain the symbol are
left unchanged fails as stated. -/
theorem invalidate_symbol_counterexample :
    ¬ ("cache".data <:+: "k".data) ∧
    mapFind c7Demo.memoryCache "k".data = some ⟨7, 0, 100⟩ ∧
    mapFind (CacheService.invalidateSymbol c7Demo "cache".data).memoryCache "k".data = none ∧
    mapFind (CacheService.invalidateSymbol c7Demo "cache".data).localStore
      (getStorageKey "k".data) = none := by
  refine ⟨by decide, rfl, ?_, ?_⟩ <;> decide

/-- Occurrences of a pattern whose characters avoid a prefix are unaffected
by prepending that prefix (justifies the transparency hypothesis of the
amended C7 for real ticker symbols). -/
theorem infix_append_of_disjoint (symbol k : List Char) (hne : symbol ≠ []) :
    ∀ pre : List Char, (∀ c ∈ symbol, c ∉ pre) →
      (symbol <:+: (pre ++ k) ↔ symbol <:+: k) := by
  intro pre
  induction pre with
  | nil =>
    intro _
    simp
  | cons p pre' ih =>
    intro hdisj
    have hdisj' : ∀ c ∈ symbol, c ∉ pre' :=
      fun c hc hm => hdisj c hc (List.mem_cons_of_mem p hm)
    constructor
    · rintro ⟨t₁, t₂, heq⟩
      rcases t₁ with _ | ⟨x, t₁'⟩
      · rcases hsym : symbol with _ | ⟨c, srest⟩
        · exact absurd hsym hne
        · rw [hsym] at heq
          simp only [List.nil_append, List.cons_append] at heq
          injection heq with h1 _
          have hc : c ∈ symbol := by
            rw [hsym]
            exact List.mem_cons_self c srest
          have := hdisj c hc
          rw [h1] at this
          exact absurd (List.mem_cons_self p pre') this
      · have heq' : x :: (t₁' ++ symbol ++ t₂) = p :: (pre' ++ k) := by
          simpa using heq
        injection heq' with h1 h2
        exact (ih hdisj').mp ⟨t₁', t₂, h2⟩
    · intro h
      obtain ⟨t₁, t₂, heq⟩ := (ih hdisj').mpr h
      exact ⟨p :: t₁, t₂, by simpa using congrArg (List.cons p) heq⟩

/-- Two-symbol cache for the C7 witness. -/
def c7Wit : CacheState Nat :=
  ⟨[("quote_AAPL".data, ⟨1, 0, 9⟩), ("quote_MSFT".data, ⟨2, 0, 9⟩)],
   [(getStorageKey "quote_AAPL".data, ⟨1, 0, 9⟩),
    (getStorageKey "quote_MSFT".data, ⟨2, 0, 9⟩)]⟩

/-- Witness for C7 (amended): symbol "AAPL" removes the AAPL quote from the
memory tier and leaves the MSFT entry unchanged. -/
theorem invalidate_symbol_spec_witness :
    (∀ j ∈ mapKeys c7Wit.localStore, avCacheNs <+: j) ∧
    ¬ ("AAPL".data <:+: "quote_MSFT".data) ∧
    mapFind (CacheService.invalidateSymbol c7Wit "AAPL".data).memoryCache
      "quote_AAPL".data = none ∧
    mapFind (CacheService.invalidateSymbol c7Wit "AAPL".data).memoryCache
      "quote_MSFT".data = mapFind c7Wit.memoryCache "quote_MSFT".data :=
  ⟨by decide, by decide,
   ((invalidate_symbol_spec c7Wit "AAPL".data (by decide)
      (fun k' => infix_append_of_disjoint "AAPL".data k' (by decide) avCacheNs (by decide))
      "quote_AAPL".data).1 (by decide)).1,
   ((invalidate_symbol_spec c7Wit "AAPL".data (by decide)
      (fun k' => infix_append_of_disjoint "AAPL".data k' (by decide) avCacheNs (by decide))
      "quote_MSFT".data).2 (by decide)).1⟩

/-! ## C6/C10: AlphaVantageService (alphaVantageService.ts)

The parsed JSON body of an HTTP-200 vendor response.  Vendor error signals
are the top-level string fields `Error Message`, `Note` and `Information`;
`Global Quote` is the payload object of `GLOBAL_QUOTE` responses, with its
`01. symbol` field (the remaining `02.`-`10.` numeric fields are parsed with
`parseFloat`/`parseInt` into the returned record and are not inspected by
any claim, so the model keeps only the guard-relevant field). -/

structure GlobalQuoteObj where
  symbol01 : Option (List Char)
  deriving Repr, DecidableEq

structure VendorJson where
  errorMessage : Option (List Char)
  note : Option (List Char)
  information : Option (List Char)
  globalQuote : Option GlobalQuoteObj
  deriving Repr, DecidableEq

/-- JS truthiness of an optional string field: present and non-empty. -/
def truthy : Option (List Char) → Bool
  | some s => !s.isEmpty
  | none => false

/-- The three vendor-error checks of `fetchWithRateLimit` (lines 539-549),
run on a 200-status JSON body before it is returned as valid data. -/
def checkVendorErrors (j : VendorJson) : Except (List Char) VendorJson :=
  if truthy j.errorMessage then
    Except.error ("Invalid symbol or API error: ".data ++ j.errorMessage.getD [])
  else if truthy j.note then
    Except.error ("API rate limit exceeded: ".data ++ j.note.getD [])
  else if truthy j.information then
    Except.error ("API limit reached: ".data ++ j.information.getD [])
  else Except.ok j

/-- C6 (amended): when the HTTP-200 body carries an `Error Message`, `Note`
or `Information` key with a non-empty string value, the fetch action rejects
with the corresponding descriptive error (invalid-symbol for
`Error Message`, vendor-rate-limit for `Note`/`Information`) and never
returns the body to the caller as valid data. -/
theorem vendor_error_spec (j : VendorJson)
    (h : truthy j.errorMessage = true ∨ truthy j.note = true ∨
      truthy j.information = true) :
    (∃ e, checkVendorErrors j = Except.error e) ∧
    ∀ j' : VendorJson, checkVendorErrors j ≠ Except.ok j' := by
  unfold checkVendorErrors
  by_cases h1 : truthy j.errorMessage = true
  · rw [if_pos h1]
    exact ⟨⟨_, rfl⟩, fun j' hc => by cases hc⟩
  · rw [if_neg h1]
    by_cases h2 : truthy j.note = true
    · rw [if_pos h2]
      exact ⟨⟨_, rfl⟩, fun j' hc => by cases hc⟩
    · rw [if_neg h2]
      by_cases h3 : truthy j.information = true
      · rw [if_pos h3]
        exact ⟨⟨_, rfl⟩, fun j' hc => by cases hc⟩
      · rcases h with h | h | h
        · exact absurd h h1
        · exact absurd h h2
        · exact absurd h h3

/-- Witness for C6 (amended): a body with a non-empty `Note` is rejected. -/
theorem vendor_error_spec_witness :
    truthy (VendorJson.note ⟨none, some "call limit".data, none, none⟩) = true ∧
    (∃ e, checkVendorErrors ⟨none, some "call limit".data, none, none⟩ = Except.error e) ∧
    ∀ j' : VendorJson,
      checkVendorErrors ⟨none, some "call limit".data, none, none⟩ ≠ Except.ok j' :=
  ⟨by decide,
   (vendor_error_spec ⟨none, some "call limit".data, none, none⟩ (Or.inr (Or.inl (by decide)))).1,
   (vendor_error_spec ⟨none, some "call limit".data, none, none⟩ (Or.inr (Or.inl (by decide)))).2⟩

/-- C6 counterexample: a body whose `Note` key is present with the empty
string is falsy in JS, so all three checks pass and the body is returned as
valid data — the claim as stated (any body containing one of the keys is
rejected) fails on this input. -/
theorem vendor_error_counterexample :
    (VendorJson.note ⟨none, some [], none, none⟩).isSome = true ∧
    checkVendorErrors ⟨none, some [], none, none⟩ =
      Except.ok ⟨none, some [], none, none⟩ :=
  ⟨rfl, rfl⟩

/-- `AlphaVantageService.fetchWithRateLimit` (lines 508-558) at the facade
level: return the cached body on a hit; otherwise run the fetch action
(whose parsed 200-status body is the parameter `response`), reject on vendor
error signals, and cache the body before returning it.  The third component
records whether a rate-limited network call was issued. -/
def fetchWithRateLimit (st : CacheState VendorJson) (cacheKey : List Char)
    (ty : CacheType) (now : Int) (response : VendorJson) :
    Except (List Char) VendorJson × CacheState VendorJson × Bool :=
  match CacheService.get st cacheKey now with
  | (some cached, st1) => (Except.ok cached, st1, false)
  | (none, st1) =>
    match checkVendorErrors response with
    | Except.error e => (Except.error e, st1, true)
    | Except.ok j => (Except.ok j, CacheService.set st1 cacheKey j ty now, true)

def toUpperChars (s : List Char) : List Char := s.map Char.toUpper

def quoteCacheKey (symbol : List Char) : List Char :=
  "quote_".data ++ toUpperChars symbol

def noQuoteMsg (symbol : List Char) : List Char :=
  "No quote data available for ".data ++ symbol

/-- The caller-facing quote record; only the symbol field is modelled (see
`GlobalQuoteObj`). -/
structure StockQuote where
  symbol : List Char
  deriving Repr, DecidableEq

/-- `AlphaVantageService.getQuote` (lines 564-596): fetch under the QUOTE
cache key, then guard `!quote || !quote['01. symbol']` (absent object,
absent field, or empty-string field) before transforming. -/
def getQuote (st : CacheState VendorJson) (symbol : List Char) (now : Int)
    (response : VendorJson) :
    Except (List Char) StockQuote × CacheState VendorJson × Bool :=
  match fetchWithRateLimit st (quoteCacheKey symbol) CacheType.QUOTE now response with
  | (Except.error e, st1, fetched) => (Except.error e, st1, fetched)
  | (Except.ok j, st1, fetched) =>
    match j.globalQuote with
    | none => (Except.error (noQuoteMsg symbol), st1, fetched)
    | some q =>
      match q.symbol01 with
      | none => (Except.error (noQuoteMsg symbol), st1, fetched)
      | some s01 =>
        if s01.isEmpty then (Except.error (noQuoteMsg symbol), st1, fetched)
        else (Except.ok ⟨s01⟩, st1, fetched)

/-- The 200-status body has none of the vendor error keys (truthy) but also
no usable `Global Quote` payload. -/
def NoQuotePayload (j : VendorJson) : Prop :=
  truthy j.errorMessage = false ∧ truthy j.note = false ∧
  truthy j.information = false ∧
  (j.globalQuote = none ∨
    ∃ q, j.globalQuote = some q ∧ (q.symbol01 = none ∨ q.symbol01 = some []))

/-- C10: when the vendor responds 200 with none of the error keys but no
usable `Global Quote` payload, `getQuote` rejects with the no-quote-data
error, yet the raw body has already been cached under the QUOTE key with the
60-second TTL, so a second `getQuote` within the TTL rejects again with the
same error from the cached body without issuing a new rate-limited call
(its result is independent of the new network response). -/
theorem stale_error_caching_spec (symbol : List Char) (now now2 : Int)
    (j j2 : VendorJson) (hj : NoQuotePayload j)
    (h12 : now ≤ now2) (h2ttl : now2 ≤ now + CACHE_DURATIONS CacheType.QUOTE) :
    (getQuote (initCache VendorJson) symbol now j).1
        = Except.error (noQuoteMsg symbol) ∧
    (getQuote (initCache VendorJson) symbol now j).2.2 = true ∧
    mapFind (getQuote (initCache VendorJson) symbol now j).2.1.memoryCache
        (quoteCacheKey symbol)
      = some ⟨j, now, now + CACHE_DURATIONS CacheType.QUOTE⟩ ∧
    (getQuote ((getQuote (initCache VendorJson) symbol now j).2.1) symbol now2 j2).1
        = Except.error (noQuoteMsg symbol) ∧
    (getQuote ((getQuote (initCache VendorJson) symbol now j).2.1) symbol now2 j2).2.2
        = false := by
  obtain ⟨he, hn, hi, hq⟩ := hj
  have hcheck : checkVendorErrors j = Except.ok j := by
    unfold checkVendorErrors
    rw [he, hn, hi]
    simp
  have hmiss : CacheService.get (initCache VendorJson) (quoteCacheKey symbol) now
      = (none, initCache VendorJson) := rfl
  have hfetch1 : fetchWithRateLimit (initCache VendorJson) (quoteCacheKey symbol)
      CacheType.QUOTE now j
      = (Except.ok j,
          CacheService.set (initCache VendorJson) (quoteCacheKey symbol) j
            CacheType.QUOTE now, true) := by
    unfold fetchWithRateLimit
    rw [hmiss, hcheck]
  have hgq1 : getQuote (initCache VendorJson) symbol now j
      = (Except.error (noQuoteMsg symbol),
          CacheService.set (initCache VendorJson) (quoteCacheKey symbol) j
            CacheType.QUOTE now, true) := by
    unfold getQuote
    rw [hfetch1]
    rcases hq with hq | ⟨q, hq, hs⟩
    · simp only [hq]
    · rcases hs with hs | hs
      · simp only [hq, hs]
      · simp only [hq, hs, List.isEmpty_nil, if_true]
  rw [hgq1]
  set st1 := CacheService.set (initCache VendorJson) (quoteCacheKey symbol) j
    CacheType.QUOTE now with hst1
  have hentry : mapFind st1.memoryCache (quoteCacheKey symbol)
      = some ⟨j, now, now + CACHE_DURATIONS CacheType.QUOTE⟩ := by
    rw [hst1]
    exact mapFind_insert_self _ _ _
  have hget2 : CacheService.get st1 (quoteCacheKey symbol) now2
      = (some j, st1) := by
    rw [CacheService.get_mem_hit hentry now2]
    have : ¬ now2 > CacheEntry.expiresAt
        ⟨j, now, now + CACHE_DURATIONS CacheType.QUOTE⟩ := not_lt.mpr h2ttl
    rw [if_neg this]
  have hfetch2 : fetchWithRateLimit st1 (quoteCacheKey symbol)
      CacheType.QUOTE now2 j2 = (Except.ok j, st1, false) := by
    unfold fetchWithRateLimit
    rw [hget2]
  have hgq2 : getQuote st1 symbol now2 j2
      = (Except.error (noQuoteMsg symbol), st1, false) := by
    unfold getQuote
    rw [hfetch2]
    rcases hq with hq' | ⟨q, hq', hs⟩
    · simp only [hq']
    · rcases hs with hs | hs
      · simp only [hq', hs]
      · simp only [hq', hs, List.isEmpty_nil, if_true]
  rw [hgq2]
  exact ⟨rfl, rfl, hentry, rfl, rfl⟩

/-- Witness for C10: an empty 200 body for symbol IBM is rejected, cached,
and a later call within the TTL rejects from the cache even though the new
network response would now carry a quote. -/
theorem stale_error_caching_spec_witness :
    NoQuotePayload ⟨none, none, none, none⟩ ∧
    (getQuote (initCache VendorJson) "IBM".data 100 ⟨none, none, none, none⟩).1
        = Except.error (noQuoteMsg "IBM".data) ∧
    (getQuote ((getQuote (initCache VendorJson) "IBM".data 100
        ⟨none, none, none, none⟩).2.1) "IBM".data 200
        ⟨none, none, none, some ⟨some "IBM".data⟩⟩).1
        = Except.error (noQuoteMsg "IBM".data) ∧
    (getQuote ((getQuote (initCache VendorJson) "IBM".data 100
        ⟨none, none, none, none⟩).2.1) "IBM".data 200
        ⟨none, none, none, some ⟨some "IBM".data⟩⟩).2.2 = false := by
  have h := stale_error_caching_spec "IBM".data 100 200 ⟨none, none, none, none⟩
    ⟨none, none, none, some ⟨some "IBM".data⟩⟩
    ⟨rfl, rfl, rfl, Or.inl rfl⟩ (by decide) (by decide)
  exact ⟨⟨rfl, rfl, rfl, Or.inl rfl⟩, h.1, h.2.2.2.1, h.2.2.2.2⟩

end StockResearch
